import Mathlib

/-!
Verification development for `nhk_podcast_feed.py`, a single-file RSS feed
transformer.  The pure logic of the script (regular-expression based string
rewriting, duration estimation, size-header parsing, and the element-tree
transformation `transform_feed`) is shallowly embedded below.  Network I/O
(`urllib`), the XML parser/serializer (`xml.etree.ElementTree.fromstring` /
`tostring`) and the command-line glue are external collaborators: parsing is
abstracted by working on an explicit element-tree type, and the size prober is
abstracted as a function parameter.
-/

namespace Nhk

/-- ASCII subset of the whitespace class used by Python regular expressions
and `int()` / `str.strip` (the feed content is ASCII-escaped XML). -/
def isPySpace (c : Char) : Bool :=
  c == ' ' || c == '\t' || c == '\n' || c == '\r' || c == '\x0b' || c == '\x0c'

def isQuoteChar (c : Char) : Bool := c == '"' || c == '\x27'

/-- `BASE_URL = "https://nhkeasier.com"` from the script. -/
def BASE_URL : String := "https://nhkeasier.com"

/-- `BITRATE_BPS = 192000` from the script. -/
def BITRATE_BPS : Nat := 192000

/-- The itunes namespace URI registered in `NAMESPACES`. -/
def itunes_ns : String := "http://www.itunes.com/dtds/podcast-1.0.dtd"

/-- `f'{{{itunes_ns}}}{tag}'`: ElementTree qualified-tag syntax. -/
def itunesTag (t : String) : String := "\x7b" ++ itunes_ns ++ "\x7d" ++ t

/-- Drop an exact literal prefix (case sensitive), returning the rest. -/
def dropLit : List Char → List Char → Option (List Char)
  | [], l => some l
  | _ :: _, [] => none
  | p :: ps, c :: cs => if c == p then dropLit ps cs else none

/-- Drop a literal prefix case-insensitively (pattern given in lower case);
models a literal under `re.IGNORECASE`. -/
def dropLitCI : List Char → List Char → Option (List Char)
  | [], l => some l
  | _ :: _, [] => none
  | p :: ps, c :: cs => if c.toLower == p then dropLitCI ps cs else none

/-! ## `fix_relative_urls`

The script substitutes the regex `(src|href)=["\x27]/(?!/)([^"\x27]+)["\x27]`
by `\1="{BASE_URL}/\2"` (case sensitive, left-to-right, non-overlapping).
-/

/-- Match the part of the pattern after `src=` / `href=`: one quote, `/`,
negative lookahead for a second `/`, a nonempty run of non-quote characters
(the group `\2`, including the character after the `/`), and a closing quote.
Returns (group 2, rest after the match).  The character class excludes both
quote characters, so the greedy run never needs to backtrack: the run is
maximal and the next character must be a quote. -/
def matchAttrValue : List Char → Option (List Char × List Char)
  | q :: '/' :: c2 :: rest2 =>
    if isQuoteChar q && !(c2 == '/') && !isQuoteChar c2 then
      let v := c2 :: rest2.takeWhile (fun c => !isQuoteChar c)
      match rest2.dropWhile (fun c => !isQuoteChar c) with
      | _ :: rest3 => some (v, rest3)
      | [] => none
    else none
  | _ => none

/-- Try the whole attribute pattern at the head of `l`.  The alternatives
`src` and `href` begin with different letters, so trying `src=` first and
`href=` second is exactly the regex alternation.  Returns
(attribute name, group 2, rest after the match). -/
def matchAttrAt (l : List Char) : Option (List Char × List Char × List Char) :=
  match dropLit ['s', 'r', 'c', '='] l with
  | some r =>
    match matchAttrValue r with
    | some (v, rest) => some (['s', 'r', 'c'], v, rest)
    | none => none
  | none =>
    match dropLit ['h', 'r', 'e', 'f', '='] l with
    | some r =>
      match matchAttrValue r with
      | some (v, rest) => some (['h', 'r', 'e', 'f'], v, rest)
      | none => none
    | none => none

/-- The fixed part of the replacement `\1="{BASE_URL}/\2"` between the
attribute name and the group. -/
def replBase : List Char := ('=' :: '"' :: BASE_URL.data) ++ ['/']

/-- Left-to-right, non-overlapping substitution, as `re.sub` performs it.
Fuel-driven so that the function is structurally recursive; `fuel ≥ length`
always holds at the call sites. -/
def fixSubGo : Nat → List Char → List Char
  | _, [] => []
  | 0, l => l
  | fuel + 1, c :: cs =>
    match matchAttrAt (c :: cs) with
    | some (a, v, rest) => (a ++ replBase ++ v ++ ['"']) ++ fixSubGo fuel rest
    | none => c :: fixSubGo fuel cs

/-- `fix_relative_urls` from the script, including its empty-string guard. -/
def fix_relative_urls (html_content : String) : String :=
  if html_content = "" then html_content
  else String.mk (fixSubGo html_content.data.length html_content.data)

/-! ## `extract_mp3_url`

The script decodes HTML entities and then searches (with `re.IGNORECASE`) for
`<audio[^>]+src=["\x27]?([^"\x27>\s]+\.mp3)`, first match wins.
-/

/-- Models Python `html.unescape` restricted to the named/numeric entities
that occur in the feed's HTML-escaped descriptions. -/
def unescapeList : List Char → List Char
  | [] => []
  | '&' :: 'a' :: 'm' :: 'p' :: ';' :: rest => '&' :: unescapeList rest
  | '&' :: 'l' :: 't' :: ';' :: rest => '<' :: unescapeList rest
  | '&' :: 'g' :: 't' :: ';' :: rest => '>' :: unescapeList rest
  | '&' :: 'q' :: 'u' :: 'o' :: 't' :: ';' :: rest => '"' :: unescapeList rest
  | '&' :: 'a' :: 'p' :: 'o' :: 's' :: ';' :: rest => '\x27' :: unescapeList rest
  | '&' :: '#' :: '3' :: '9' :: ';' :: rest => '\x27' :: unescapeList rest
  | c :: rest => c :: unescapeList rest

def unescapeHtml (s : String) : String := String.mk (unescapeList s.data)

/-- The character class `[^"\x27>\s]` of the audio-src group. -/
def audioSrcChar (c : Char) : Bool :=
  !(c == '"' || c == '\x27' || c == '>' || isPySpace c)

/-- Case-insensitive list equality (false on length mismatch). -/
def listEqCI : List Char → List Char → Bool
  | [], [] => true
  | c :: cs, p :: ps => (c.toLower == p) && listEqCI cs ps
  | _, _ => false

/-- Greedy backtracking for `([^"\x27>\s]+\.mp3)` over the maximal class run
`M`: the engine shortens the `+` run from the right, so the successful group
is `M.take (k+4)` for the largest `k ≥ 1` such that `.mp3` (case-insensitive)
occurs at offset `k`.  `tryK k0 M` tries `k = k0, k0-1, …, 1`. -/
def tryK : Nat → List Char → Option (List Char)
  | 0, _ => none
  | k + 1, M =>
    if listEqCI ((M.drop (k + 1)).take 4) ['.', 'm', 'p', '3'] then
      some (M.take (k + 1 + 4))
    else tryK k M

/-- Match `["\x27]?([^"\x27>\s]+\.mp3)` at the head of `l`, returning the
group.  The optional quote is consumed when present: if it were left in
place the character class (which excludes quotes) would fail anyway, so the
`?`-backtracking alternative can never succeed. -/
def matchSrcTail (l : List Char) : Option (List Char) :=
  let l2 := match l with
    | q :: rest => if isQuoteChar q then rest else l
    | [] => l
  let M := l2.takeWhile audioSrcChar
  tryK (M.length - 4) M

/-- Backtracking for `[^>]+` before `src=`: the run takes `j` characters,
`1 ≤ j ≤ R` where `R` is the maximal `>`-free run, longest first.  `tryJ rest
j0` tries `j = j0, j0-1, …, 1`. -/
def tryJ (rest : List Char) : Nat → Option (List Char)
  | 0 => none
  | j + 1 =>
    match dropLitCI ['s', 'r', 'c', '='] (rest.drop (j + 1)) with
    | some after =>
      match matchSrcTail after with
      | some g => some g
      | none => tryJ rest j
    | none => tryJ rest j

/-- Try the whole audio pattern at the head of `l`, returning group 1. -/
def matchAudioAt (l : List Char) : Option (List Char) :=
  match dropLitCI ['<', 'a', 'u', 'd', 'i', 'o'] l with
  | some rest => tryJ rest (rest.takeWhile (fun c => !(c == '>'))).length
  | none => none

/-- `re.search`: try every start position from the left, first hit wins. -/
def searchAudio : List Char → Option (List Char)
  | [] => none
  | c :: cs =>
    match matchAudioAt (c :: cs) with
    | some g => some g
    | none => searchAudio cs

/-- `str.startswith` on our string representation. -/
def strStartsWith (s p : String) : Bool := p.data.isPrefixOf s.data

/-- `extract_mp3_url` from the script. -/
def extract_mp3_url (description : String) : Option String :=
  let unescaped := unescapeHtml description
  match searchAudio unescaped.data with
  | some g =>
    let mp3_path := String.mk g
    if strStartsWith mp3_path "/" then some (BASE_URL ++ mp3_path)
    else some mp3_path
  | none => none

/-! ## `format_duration` -/

/-- Zero-padding to two digits, as the format specifier `{:02}` does. -/
def pad2 (n : Nat) : String := if n < 10 then "0" ++ toString n else toString n

/-- `format_duration` from the script.  Python computes
`int(file_size_bytes * 8 / BITRATE_BPS)` with float division; for every size
below about 2^50 bytes the float quotient truncates to the exact floor, so
the embedding uses exact floor division. -/
def format_duration (file_size_bytes : Int) : String :=
  if file_size_bytes ≤ 0 then "00:00"
  else
    let total_seconds : Nat := file_size_bytes.toNat * 8 / BITRATE_BPS
    let hours := total_seconds / 3600
    let remainder := total_seconds % 3600
    let minutes := remainder / 60
    let seconds := remainder % 60
    if hours > 0 then pad2 hours ++ ":" ++ pad2 minutes ++ ":" ++ pad2 seconds
    else pad2 minutes ++ ":" ++ pad2 seconds

/-! ## `get_mp3_size`

The HEAD request is abstracted as a `HeadResult`: either the request raised
(`failure`) or it returned with an optional `Content-Length` header value.
-/

inductive HeadResult where
  | failure : HeadResult
  | success : Option String → HeadResult

def digitVal (c : Char) : Option Nat :=
  if c.isDigit then some (c.toNat - 48) else none

def digitsToNat : Nat → List Char → Option Nat
  | acc, [] => some acc
  | acc, c :: cs =>
    match digitVal c with
    | some d => digitsToNat (acc * 10 + d) cs
    | none => none

/-- Python `int(str)`: strips surrounding whitespace, then an optional sign
and a nonempty digit run; anything else raises (modelled as `none`). -/
def pyParseInt (s : String) : Option Int :=
  let t := ((s.data.dropWhile isPySpace).reverse.dropWhile isPySpace).reverse
  match t with
  | [] => none
  | '-' :: ds =>
    if ds.isEmpty then none
    else (digitsToNat 0 ds).map (fun n => -(n : Int))
  | '+' :: ds =>
    if ds.isEmpty then none
    else (digitsToNat 0 ds).map (fun n => (n : Int))
  | ds => (digitsToNat 0 ds).map (fun n => (n : Int))

/-- `get_mp3_size` from the script: any exception (including a non-numeric
header, which makes `int()` raise inside the `try`) and a missing or empty
(falsy) header yield 0. -/
def get_mp3_size : HeadResult → Int
  | .failure => 0
  | .success none => 0
  | .success (some cl) =>
    if cl = "" then 0
    else
      match pyParseInt cl with
      | some n => n
      | none => 0

/-! ## Namespace de-duplication

`transform_feed` first substitutes
`(\s+xmlns:itunes="[^"]*")(\s+xmlns:itunes="[^"]*")+` by `\1` on the raw
source text. -/

def xmlnsItunesLit : List Char :=
  ['x', 'm', 'l', 'n', 's', ':', 'i', 't', 'u', 'n', 'e', 's', '=', '"']

/-- One `(\s+xmlns:itunes="[^"]*")` repetition at the head of `l`: returns
(consumed text, rest). -/
def nsDeclAt (l : List Char) : Option (List Char × List Char) :=
  let ws := l.takeWhile isPySpace
  if ws.isEmpty then none
  else
    match dropLit xmlnsItunesLit (l.dropWhile isPySpace) with
    | none => none
    | some r =>
      let uri := r.takeWhile (fun c => !(c == '"'))
      match r.dropWhile (fun c => !(c == '"')) with
      | _ :: rest => some (ws ++ xmlnsItunesLit ++ uri ++ ['"'], rest)
      | [] => none

/-- Greedy `(…)+`: count the consecutive declarations consumed and return
the rest.  Each declaration consumes at least one character, so fuel at
least the list length suffices. -/
def declRunGo : Nat → List Char → Nat × List Char
  | 0, l => (0, l)
  | fuel + 1, l =>
    match nsDeclAt l with
    | none => (0, l)
    | some (_, rest) =>
      let p := declRunGo fuel rest
      (p.1 + 1, p.2)

/-- The dedup substitution scan: at each position, a match needs one leading
declaration plus at least one more; the whole match is replaced by the first
declaration (group 1). -/
def dedupGo : Nat → List Char → List Char
  | _, [] => []
  | 0, l => l
  | fuel + 1, c :: cs =>
    match nsDeclAt (c :: cs) with
    | none => c :: dedupGo fuel cs
    | some (c1, rest1) =>
      let p := declRunGo (fuel + 1) rest1
      if p.1 == 0 then c :: dedupGo fuel cs
      else c1 ++ dedupGo fuel p.2

/-- The namespace de-duplication performed on the raw XML text (line 69 of
the script, before parsing). -/
def dedupNamespaces (s : String) : String :=
  String.mk (dedupGo s.data.length s.data)

/-! ## The element tree and `transform_feed`

`xml.etree.ElementTree` elements carry a tag, an insertion-ordered attribute
dictionary, optional text, and a list of children.  `Element.find`/`findall`
search direct children only; `SubElement` appends at the end; `remove`
removes by object identity, which functionally corresponds to deciding
keep/drop per child in place. -/

inductive Elem where
  | mk : String → List (String × String) → Option String → List Elem → Elem

def Elem.tag : Elem → String
  | .mk t _ _ _ => t

def Elem.attrs : Elem → List (String × String)
  | .mk _ a _ _ => a

def Elem.text : Elem → Option String
  | .mk _ _ x _ => x

def Elem.children : Elem → List Elem
  | .mk _ _ _ c => c

/-- Assign `elem.text = v`. -/
def Elem.setText (v : Option String) : Elem → Elem
  | .mk t a _ c => .mk t a v c

/-- `ET.SubElement(parent, …)` appends the new child at the end. -/
def Elem.append : Elem → Elem → Elem
  | .mk t a x c, child => .mk t a x (c ++ [child])

/-- `parent.find(tag)`: first direct child with the given tag. -/
def findFirstTag (t : String) : List Elem → Option Elem
  | [] => none
  | e :: es => if e.tag = t then some e else findFirstTag t es

/-- In-place mutation of the first child with the given tag. -/
def updateFirstTag (t : String) (f : Elem → Elem) : List Elem → List Elem
  | [] => []
  | e :: es => if e.tag = t then f e :: es else e :: updateFirstTag t f es

/-- `attrib.get(key)` on the insertion-ordered attribute list. -/
def findAttr (k : String) (l : List (String × String)) : Option String :=
  (l.find? (fun p => p.1 == k)).map (fun p => p.2)

/-- Lines 84-95: add each absent channel-level itunes element (appending at
the end of the channel's children). -/
def addTagIfAbsent (t : String) (e : Elem) (c : Elem) : Elem :=
  if (findFirstTag t c.children).isSome then c else c.append e

def authorElem : Elem := Elem.mk (itunesTag "author") [] (some "NHK Easier") []

def summaryElem : Elem :=
  Elem.mk (itunesTag "summary") [] (some "Audio version of NHK Easier articles") []

def explicitElem : Elem := Elem.mk (itunesTag "explicit") [] (some "no") []

def categoryElem : Elem := Elem.mk (itunesTag "category") [("text", "News")] none []

/-- The `tags` dict loop (author, summary, explicit in insertion order)
followed by the category check. -/
def addChannelMeta (ch : Elem) : Elem :=
  addTagIfAbsent (itunesTag "category") categoryElem
    (addTagIfAbsent (itunesTag "explicit") explicitElem
      (addTagIfAbsent (itunesTag "summary") summaryElem
        (addTagIfAbsent (itunesTag "author") authorElem ch)))

/-- Line 105: `description_elem.text = fix_relative_urls(description_elem.text)`,
an in-place mutation of the item's first `description` child. -/
def itemAfterDesc (t2 : String) (it : Elem) : Elem :=
  Elem.mk it.tag it.attrs it.text
    (updateFirstTag "description" (Elem.setText (some t2)) it.children)

/-- The enclosure element synthesized on lines 118-121. -/
def enclosureElem (mp3_url : String) (file_size : Int) : Elem :=
  Elem.mk "enclosure"
    [("url", mp3_url), ("type", "audio/mpeg"), ("length", toString file_size)]
    none []

/-- Lines 116-121: add an enclosure only when the item has none. -/
def itemWithEnclosure (mp3_url : String) (file_size : Int) (it1 : Elem) : Elem :=
  if (findFirstTag "enclosure" it1.children).isSome then it1
  else it1.append (enclosureElem mp3_url file_size)

/-- The duration element synthesized on lines 124-126. -/
def durationElem (file_size : Int) : Elem :=
  Elem.mk (itunesTag "duration") [] (some (format_duration file_size)) []

/-- Lines 124-126: add an itunes duration only when the item has none. -/
def itemWithDuration (file_size : Int) (it2 : Elem) : Elem :=
  if (findFirstTag (itunesTag "duration") it2.children).isSome then it2
  else it2.append (durationElem file_size)

/-- Lines 98-126, the per-item body of the loop.  `none` means the item was
appended to `items_to_remove` (and is later removed); `some` is the item
after its in-place mutations.  The prober abstracts
`get_mp3_size : url → int`. -/
def processItem (prober : String → Int) (it : Elem) : Option Elem :=
  match findFirstTag "description" it.children with
  | none => none
  | some d =>
    match d.text with
    | none => none
    | some t =>
      if t = "" then none
      else
        let t2 := fix_relative_urls t
        let it1 := itemAfterDesc t2 it
        match extract_mp3_url t2 with
        | none => none
        | some mp3_url =>
          let file_size := prober mp3_url
          some (itemWithDuration file_size (itemWithEnclosure mp3_url file_size it1))

/-- The channel-level work of `transform_feed`: metadata completion, the item
loop, and the removal of the marked items. -/
def transformChannel (prober : String → Int) (ch : Elem) : Elem :=
  let ch1 := addChannelMeta ch
  Elem.mk ch1.tag ch1.attrs ch1.text
    (ch1.children.filterMap
      (fun e => if e.tag = "item" then processItem prober e else some e))

/-- `transform_feed`, lines 74-132, at the element-tree level (the namespace
de-duplication acts on the raw text, `dedupNamespaces` above; parsing and
serialization are the stdlib's).  A missing channel aborts the run with the
script's error message and a non-zero exit, modelled as `Except.error`. -/
def transform_feed (prober : String → Int) (root : Elem) : Except String Elem :=
  match findFirstTag "channel" root.children with
  | none => Except.error "Error: No channel element found."
  | some _ =>
    Except.ok (Elem.mk root.tag root.attrs root.text
      (updateFirstTag "channel" (transformChannel prober) root.children))

/-- The transformer contract including the parse step: `none` stands for
source text the XML parser rejects (the parser itself is stdlib). -/
def transform_total (prober : String → Int) (doc : Option Elem) : Except String Elem :=
  match doc with
  | none => Except.error "XML parse error"
  | some root => transform_feed prober root

def isOkE (r : Except String Elem) : Bool :=
  match r with
  | .ok _ => true
  | .error _ => false

/-! ### Observation helpers used by the claims -/

def channelOf (root : Elem) : Option Elem := findFirstTag "channel" root.children

def itemsOfChannel (ch : Elem) : List Elem :=
  ch.children.filter (fun e => e.tag == "item")

/-- The items of the (first) channel of a document. -/
def docItems (root : Elem) : List Elem :=
  match channelOf root with
  | some ch => itemsOfChannel ch
  | none => []

/-- The text of an item's first `description` child. -/
def descTextOf (it : Elem) : Option String :=
  (findFirstTag "description" it.children).bind Elem.text

/-- The description texts of the items of a document's channel. -/
def docDescTexts (root : Elem) : List String :=
  (docItems root).filterMap descTextOf

def enclosuresOf (it : Elem) : List Elem :=
  it.children.filter (fun e => e.tag == "enclosure")

def enclosureUrls (it : Elem) : List (Option String) :=
  (enclosuresOf it).map (fun e => findAttr "url" e.attrs)

def enclosureLengths (it : Elem) : List (Option String) :=
  (enclosuresOf it).map (fun e => findAttr "length" e.attrs)

def durationsOf (it : Elem) : List Elem :=
  it.children.filter (fun e => e.tag == itunesTag "duration")

def durationTexts (it : Elem) : List (Option String) :=
  (durationsOf it).map Elem.text

/-- The substitution scan with its canonical fuel. -/
def fixSub (l : List Char) : List Char := fixSubGo l.length l

/-- One textual `\s+xmlns:itunes="uri"` declaration (single leading space). -/
def itunesDecl (uri : List Char) : List Char :=
  ' ' :: (xmlnsItunesLit ++ (uri ++ ['"']))

/-- `k` consecutive copies of the declaration. -/
def repDecl (uri : List Char) : Nat → List Char
  | 0 => []
  | k + 1 => itunesDecl uri ++ repDecl uri k

/-! ### Concrete data used by witnesses and counterexamples -/

/-- A prober whose every HEAD request fails or lacks a length (size 0). -/
def probeZero : String → Int := fun _ => 0

/-- A prober that always reports a fixed large size. -/
def probeBig : String → Int := fun _ => 86400000

def descElem (t : String) : Elem := Elem.mk "description" [] (some t) []

def mkItem (kids : List Elem) : Elem := Elem.mk "item" [] none kids

def mkFeed (items : List Elem) : Elem :=
  Elem.mk "rss" [] none [Elem.mk "channel" [] none items]

/-- The URL is absolute in the scheme-qualified sense. -/
def isAbsoluteUrl (u : String) : Bool :=
  strStartsWith u "http://" || strStartsWith u "https://"

/-- The property asserted by the enclosure invariant as literally claimed:
every output item has exactly one enclosure whose url is non-empty and
absolute. -/
def enclosureInvariantHolds (p : String → Int) (root : Elem) : Bool :=
  match transform_feed p root with
  | .error _ => true
  | .ok out =>
    (docItems out).all (fun it =>
      match enclosureUrls it with
      | [some u] => !(u == "") && isAbsoluteUrl u
      | _ => false)

/-- Item with a relative (non-root-relative) audio path: survives, but its
synthesized enclosure URL "x.mp3" is not absolute. -/
def c1ItemRelative : Elem :=
  mkItem [descElem "<audio src=\"x.mp3\"></audio>"]

/-- Item that already carries two enclosures (one with an empty url); the
code leaves both untouched. -/
def c1ItemTwoEnclosures : Elem :=
  mkItem [descElem "<audio src=\"/y.mp3\"></audio>",
    Elem.mk "enclosure" [("url", "")] none [],
    Elem.mk "enclosure" [("url", "https://a/b.mp3")] none []]

def c1Feed : Elem := mkFeed [c1ItemRelative, c1ItemTwoEnclosures]

/-- Description with a mismatched quote: the rewrite is not idempotent on
it (the second pass rewrites `href="/b'` which the first pass left). -/
def c2TrickyDesc : String :=
  "<p src=\x27/a href=\x27/b\x27><audio src=\"/ok.mp3\"></audio></p>"

def c2Feed : Elem := mkFeed [mkItem [descElem c2TrickyDesc]]

def c2Out1 : Elem :=
  match transform_feed probeZero c2Feed with
  | .ok r => r
  | .error _ => c2Feed

def c2Out2 : Elem :=
  match transform_feed probeZero c2Out1 with
  | .ok r => r
  | .error _ => c2Feed

/-- A well-behaved feed: its repaired description is a fixed point of the
relative-URL repair. -/
def c2GoodFeed : Elem :=
  mkFeed [mkItem [descElem "<p><audio src=\"/media/a.mp3\"></audio></p>"]]

def c2GoodOut : Elem :=
  match transform_feed probeZero c2GoodFeed with
  | .ok r => r
  | .error _ => c2GoodFeed

/-- Feed with one keeper and two droppers (no description, no mp3). -/
def c3Feed : Elem :=
  mkFeed [mkItem [descElem "<audio src=\"/a.mp3\"></audio>"],
    mkItem [Elem.mk "title" [] (some "no description") []],
    mkItem [descElem "<p>plain text, no audio</p>"]]

def c3Out : Elem :=
  match transform_feed probeZero c3Feed with
  | .ok r => r
  | .error _ => c3Feed

/-- An item already carrying an enclosure and a duration. -/
def c10Item : Elem :=
  mkItem [descElem "<audio src=\"/z.mp3\"></audio>",
    Elem.mk "enclosure" [("url", "https://nhkeasier.com/z.mp3"),
      ("type", "audio/mpeg"), ("length", "123")] none [],
    Elem.mk (itunesTag "duration") [] (some "00:05") []]

/-- Item for the C9 witness: description with audio, nothing else. -/
def c9Item : Elem := mkItem [descElem "<audio src=\"/w.mp3\"></audio>"]

/-- A document without a channel element. -/
def noChannelFeed : Elem :=
  Elem.mk "rss" [] none [Elem.mk "title" [] (some "nothing") []]

/-- Number of occurrences of a pattern in a character list (at any start
position). -/
def countOccur (pat : List Char) : List Char → Nat
  | [] => 0
  | c :: cs =>
    (if pat.isPrefixOf (c :: cs) then 1 else 0) + countOccur pat cs

/-- A source text in which the atom namespace prefix is declared twice
consecutively; the script de-duplicates only the itunes prefix. -/
def atomDupSource : String :=
  "<rss xmlns:atom=\"http://www.w3.org/2005/Atom\" xmlns:atom=\"http://www.w3.org/2005/Atom\"><channel></channel></rss>"

/-- The single item of the transformed well-behaved feed. -/
def c1OutItem : Elem :=
  match docItems c2GoodOut with
  | i :: _ => i
  | [] => mkItem []

/-- The C9 item after processing with the zero prober. -/
def c9Out : Elem :=
  match processItem probeZero c9Item with
  | some o => o
  | none => c9Item

/-! ## Element-tree lemmas -/

theorem elem_eta (e : Elem) : Elem.mk e.tag e.attrs e.text e.children = e := by
  cases e
  rfl

theorem setText_eq_self {e : Elem} {v : Option String} (h : e.text = v) :
    Elem.setText v e = e := by
  cases e
  cases h
  rfl

theorem append_children (e c : Elem) :
    (e.append c).children = e.children ++ [c] := by
  cases e
  rfl

theorem append_tag (e c : Elem) : (e.append c).tag = e.tag := by
  cases e
  rfl

theorem append_attrs (e c : Elem) : (e.append c).attrs = e.attrs := by
  cases e
  rfl

theorem append_text (e c : Elem) : (e.append c).text = e.text := by
  cases e
  rfl

theorem setText_tag (v : Option String) (e : Elem) :
    (Elem.setText v e).tag = e.tag := by
  cases e
  rfl

theorem findFirstTag_isSome_iff (t : String) (l : List Elem) :
    (findFirstTag t l).isSome ↔ t ∈ l.map Elem.tag := by
  induction l with
  | nil => simp [findFirstTag]
  | cons e es ih =>
    by_cases h : e.tag = t
    · simp [findFirstTag, h]
    · simp only [findFirstTag, if_neg h, List.map_cons, List.mem_cons]
      rw [ih]
      constructor
      · exact fun hm => Or.inr hm
      · rintro (h1 | h2)
        · exact absurd h1.symm h
        · exact h2

theorem findFirstTag_eq_none_iff (t : String) (l : List Elem) :
    findFirstTag t l = none ↔ t ∉ l.map Elem.tag := by
  rw [← findFirstTag_isSome_iff]
  cases findFirstTag t l <;> simp

theorem mem_of_findFirstTag {t : String} {l : List Elem} {e : Elem}
    (h : findFirstTag t l = some e) : e ∈ l ∧ e.tag = t := by
  induction l with
  | nil => simp [findFirstTag] at h
  | cons a es ih =>
    by_cases ha : a.tag = t
    · simp [findFirstTag, ha] at h
      subst h
      exact ⟨List.mem_cons_self _ _, ha⟩
    · simp [findFirstTag, ha] at h
      rcases ih h with ⟨hm, ht⟩
      exact ⟨List.mem_cons_of_mem _ hm, ht⟩

theorem filter_tag_eq_nil_iff (t : String) (l : List Elem) :
    l.filter (fun e => e.tag == t) = [] ↔ t ∉ l.map Elem.tag := by
  rw [List.filter_eq_nil_iff]
  constructor
  · intro h hm
    rcases List.mem_map.mp hm with ⟨e, he, htag⟩
    exact h e he (by simp [htag])
  · intro h e he
    simp only [beq_iff_eq]
    intro ht
    exact h (List.mem_map.mpr ⟨e, he, ht⟩)

theorem updateFirstTag_map_tag {f : Elem → Elem} (hf : ∀ e, (f e).tag = e.tag)
    (t : String) (l : List Elem) :
    (updateFirstTag t f l).map Elem.tag = l.map Elem.tag := by
  induction l with
  | nil => rfl
  | cons e es ih =>
    by_cases h : e.tag = t
    · simp [updateFirstTag, h, hf]
    · simp [updateFirstTag, h, ih]

theorem findFirstTag_updateFirstTag {f : Elem → Elem} (hf : ∀ e, (f e).tag = e.tag)
    (t : String) (l : List Elem) :
    findFirstTag t (updateFirstTag t f l) = (findFirstTag t l).map f := by
  induction l with
  | nil => rfl
  | cons e es ih =>
    by_cases h : e.tag = t
    · simp [updateFirstTag, findFirstTag, h, hf]
    · simp [updateFirstTag, findFirstTag, h, hf, ih]

theorem updateFirstTag_eq_self {t : String} {l : List Elem} {e : Elem}
    {f : Elem → Elem} (hfind : findFirstTag t l = some e) (hf : f e = e) :
    updateFirstTag t f l = l := by
  induction l with
  | nil => rfl
  | cons a es ih =>
    by_cases h : a.tag = t
    · simp [findFirstTag, h] at hfind
      subst hfind
      simp [updateFirstTag, h, hf]
    · simp [findFirstTag, h] at hfind
      simp [updateFirstTag, h, ih hfind]

theorem findFirstTag_append_of_isSome {t : String} {l : List Elem} {e : Elem}
    (h : findFirstTag t l = some e) (r : List Elem) :
    findFirstTag t (l ++ r) = some e := by
  induction l with
  | nil => simp [findFirstTag] at h
  | cons a es ih =>
    by_cases ha : a.tag = t
    · simp [findFirstTag, ha] at h ⊢
      exact h
    · simp [findFirstTag, ha] at h ⊢
      exact ih h

theorem findFirstTag_append_of_none {t : String} {l : List Elem}
    (h : findFirstTag t l = none) (r : List Elem) :
    findFirstTag t (l ++ r) = findFirstTag t r := by
  induction l with
  | nil => rfl
  | cons a es ih =>
    by_cases ha : a.tag = t
    · simp [findFirstTag, ha] at h
    · simp [findFirstTag, ha] at h ⊢
      exact ih h

theorem filterMap_eq_self_of {α : Type} {f : α → Option α} {l : List α}
    (h : ∀ e ∈ l, f e = some e) : l.filterMap f = l := by
  induction l with
  | nil => rfl
  | cons a es ih =>
    rw [List.filterMap_cons, h a (List.mem_cons_self _ _),
      ih (fun e he => h e (List.mem_cons_of_mem _ he))]

theorem length_filterMap_sub {α β : Type} (f : α → Option β) (l : List α) :
    (l.filterMap f).length
      = l.length - (l.filter (fun a => (f a).isNone)).length := by
  induction l with
  | nil => rfl
  | cons a es ih =>
    cases hfa : f a with
    | none =>
      simp only [List.filterMap_cons, hfa, List.filter_cons, Option.isNone]
      simpa using ih
    | some b =>
      have hle : (es.filter (fun a => (f a).isNone)).length ≤ es.length :=
        List.length_filter_le _ _
      simp [List.filterMap_cons, List.filter_cons, hfa, ih]
      omega

/-! ## `processItem` lemmas -/

theorem itemAfterDesc_children (t2 : String) (it : Elem) :
    (itemAfterDesc t2 it).children
      = updateFirstTag "description" (Elem.setText (some t2)) it.children := rfl

theorem itemAfterDesc_map_tag (t2 : String) (it : Elem) :
    (itemAfterDesc t2 it).children.map Elem.tag = it.children.map Elem.tag := by
  rw [itemAfterDesc_children]
  exact updateFirstTag_map_tag (fun e => setText_tag _ e) _ _

theorem itemWithEnclosure_children (u : String) (n : Int) (it1 : Elem) :
    (itemWithEnclosure u n it1).children = it1.children
      ∨ ((findFirstTag "enclosure" it1.children = none) ∧
         (itemWithEnclosure u n it1).children = it1.children ++ [enclosureElem u n]) := by
  unfold itemWithEnclosure
  by_cases h : (findFirstTag "enclosure" it1.children).isSome
  · rw [if_pos h]
    exact Or.inl rfl
  · rw [if_neg h, append_children]
    exact Or.inr ⟨Option.not_isSome_iff_eq_none.mp h, rfl⟩

theorem itemWithDuration_children (n : Int) (it2 : Elem) :
    (itemWithDuration n it2).children = it2.children
      ∨ ((findFirstTag (itunesTag "duration") it2.children = none) ∧
         (itemWithDuration n it2).children = it2.children ++ [durationElem n]) := by
  unfold itemWithDuration
  by_cases h : (findFirstTag (itunesTag "duration") it2.children).isSome
  · rw [if_pos h]
    exact Or.inl rfl
  · rw [if_neg h, append_children]
    exact Or.inr ⟨Option.not_isSome_iff_eq_none.mp h, rfl⟩

theorem itemWithEnclosure_tag (u : String) (n : Int) (it1 : Elem) :
    (itemWithEnclosure u n it1).tag = it1.tag := by
  unfold itemWithEnclosure
  split
  · rfl
  · exact append_tag _ _

theorem itemWithDuration_tag (n : Int) (it2 : Elem) :
    (itemWithDuration n it2).tag = it2.tag := by
  unfold itemWithDuration
  split
  · rfl
  · exact append_tag _ _

theorem itemWithEnclosure_attrs (u : String) (n : Int) (it1 : Elem) :
    (itemWithEnclosure u n it1).attrs = it1.attrs := by
  unfold itemWithEnclosure
  split
  · rfl
  · exact append_attrs _ _

theorem itemWithDuration_attrs (n : Int) (it2 : Elem) :
    (itemWithDuration n it2).attrs = it2.attrs := by
  unfold itemWithDuration
  split
  · rfl
  · exact append_attrs _ _

theorem itemWithEnclosure_text (u : String) (n : Int) (it1 : Elem) :
    (itemWithEnclosure u n it1).text = it1.text := by
  unfold itemWithEnclosure
  split
  · rfl
  · exact append_text _ _

theorem itemWithDuration_text (n : Int) (it2 : Elem) :
    (itemWithDuration n it2).text = it2.text := by
  unfold itemWithDuration
  split
  · rfl
  · exact append_text _ _

/-- Inversion of a successful `processItem`. -/
theorem processItem_some_inv {p : String → Int} {it out : Elem}
    (h : processItem p it = some out) :
    ∃ d t url,
      findFirstTag "description" it.children = some d ∧
      d.text = some t ∧ ¬t = "" ∧
      extract_mp3_url (fix_relative_urls t) = some url ∧
      out = itemWithDuration (p url)
        (itemWithEnclosure url (p url) (itemAfterDesc (fix_relative_urls t) it)) := by
  unfold processItem at h
  cases hd : findFirstTag "description" it.children with
  | none => simp [hd] at h
  | some d =>
    simp only [hd] at h
    cases ht : d.text with
    | none => simp [ht] at h
    | some t =>
      simp only [ht] at h
      by_cases he : t = ""
      · simp [he] at h
      · simp only [if_neg he] at h
        cases hu : extract_mp3_url (fix_relative_urls t) with
        | none => simp [hu] at h
        | some url =>
          simp only [hu, Option.some.injEq] at h
          exact ⟨d, t, url, rfl, ht, he, hu, h.symm⟩

/-- `processItem` returns `none` exactly for the removal conditions of the
loop: no description, empty (falsy) description text, or no extractable
mp3 URL in the repaired description. -/
theorem processItem_none_iff (p : String → Int) (it : Elem) :
    processItem p it = none ↔
      descTextOf it = none ∨ descTextOf it = some "" ∨
      (∃ d, descTextOf it = some d ∧ ¬d = "" ∧
        extract_mp3_url (fix_relative_urls d) = none) := by
  unfold processItem descTextOf
  cases hd : findFirstTag "description" it.children with
  | none => simp [hd]
  | some d =>
    simp only [hd, Option.some_bind']
    cases ht : d.text with
    | none => simp [ht]
    | some t =>
      simp only [ht]
      by_cases he : t = ""
      · subst he
        simp [ht]
      · simp only [if_neg he]
        cases hu : extract_mp3_url (fix_relative_urls t) with
        | none =>
          simp only [hu]
          constructor
          · intro _
            exact Or.inr (Or.inr ⟨t, rfl, he, hu⟩)
          · intro _
            trivial
        | some url =>
          simp only [hu]
          constructor
          · intro hcontra
            exact absurd hcontra (by simp)
          · rintro (h1 | h2 | ⟨d2, hd2, hne, hext⟩)
            · exact absurd h1 (by simp)
            · simp only [Option.some.injEq] at h2
              exact absurd h2 he
            · simp only [Option.some.injEq] at hd2
              subst hd2
              rw [hu] at hext
              exact absurd hext (by simp)

theorem processItem_tag {p : String → Int} {it out : Elem}
    (h : processItem p it = some out) : out.tag = it.tag := by
  rcases processItem_some_inv h with ⟨d, t, url, _, _, _, _, hout⟩
  rw [hout, itemWithDuration_tag, itemWithEnclosure_tag]
  rfl

theorem processItem_attrs {p : String → Int} {it out : Elem}
    (h : processItem p it = some out) : out.attrs = it.attrs := by
  rcases processItem_some_inv h with ⟨d, t, url, _, _, _, _, hout⟩
  rw [hout, itemWithDuration_attrs, itemWithEnclosure_attrs]
  rfl

theorem processItem_text {p : String → Int} {it out : Elem}
    (h : processItem p it = some out) : out.text = it.text := by
  rcases processItem_some_inv h with ⟨d, t, url, _, _, _, _, hout⟩
  rw [hout, itemWithDuration_text, itemWithEnclosure_text]
  rfl

theorem setText_text (v : Option String) (e : Elem) : (Elem.setText v e).text = v := by
  cases e
  rfl

theorem findFirstTag_itemAfterDesc {t2 : String} {it d : Elem}
    (hd : findFirstTag "description" it.children = some d) :
    findFirstTag "description" (itemAfterDesc t2 it).children
      = some (Elem.setText (some t2) d) := by
  rw [itemAfterDesc_children,
    findFirstTag_updateFirstTag (fun e => setText_tag _ e), hd]
  rfl

theorem findFirstTag_itemWithEnclosure_of_some {u : String} {n : Int}
    {it1 : Elem} {t : String} {e : Elem}
    (h : findFirstTag t it1.children = some e) :
    findFirstTag t (itemWithEnclosure u n it1).children = some e := by
  rcases itemWithEnclosure_children u n it1 with hc | ⟨_, hc⟩ <;> rw [hc]
  · exact h
  · exact findFirstTag_append_of_isSome h _

theorem findFirstTag_itemWithDuration_of_some {n : Int}
    {it2 : Elem} {t : String} {e : Elem}
    (h : findFirstTag t it2.children = some e) :
    findFirstTag t (itemWithDuration n it2).children = some e := by
  rcases itemWithDuration_children n it2 with hc | ⟨_, hc⟩ <;> rw [hc]
  · exact h
  · exact findFirstTag_append_of_isSome h _

theorem fixSubGo_ne_nil (fuel : Nat) (c : Char) (cs : List Char) :
    fixSubGo fuel (c :: cs) ≠ [] := by
  cases fuel with
  | zero => simp [fixSubGo]
  | succ n =>
    unfold fixSubGo
    cases matchAttrAt (c :: cs) with
    | none => simp
    | some r => simp [replBase]

/-- The repaired description of a nonempty description is nonempty. -/
theorem fix_relative_urls_ne_empty {t : String} (h : ¬t = "") :
    ¬fix_relative_urls t = "" := by
  unfold fix_relative_urls
  rw [if_neg h]
  cases t with
  | mk data =>
    cases data with
    | nil => exact absurd rfl h
    | cons c cs =>
      intro hc
      have : fixSubGo (c :: cs).length (c :: cs) = [] := by
        have := congrArg String.data hc
        simpa using this
      exact fixSubGo_ne_nil _ _ _ this

/-- A surviving item's description text was repaired in place. -/
theorem processItem_descText {p : String → Int} {it out : Elem}
    (h : processItem p it = some out) :
    ∃ t, descTextOf it = some t ∧ ¬t = "" ∧
      descTextOf out = some (fix_relative_urls t) := by
  rcases processItem_some_inv h with ⟨d, t, url, hd, ht, he, hu, hout⟩
  refine ⟨t, ?_, he, ?_⟩
  · unfold descTextOf
    rw [hd, Option.some_bind', ht]
  · subst hout
    unfold descTextOf
    rw [findFirstTag_itemWithDuration_of_some
        (findFirstTag_itemWithEnclosure_of_some (findFirstTag_itemAfterDesc hd)),
      Option.some_bind', setText_text]

theorem processItem_hasEnclosure {p : String → Int} {it out : Elem}
    (h : processItem p it = some out) :
    (findFirstTag "enclosure" out.children).isSome := by
  rcases processItem_some_inv h with ⟨d, t, url, hd, ht, he, hu, hout⟩
  subst hout
  have hsome : (findFirstTag "enclosure"
      (itemWithEnclosure url (p url) (itemAfterDesc (fix_relative_urls t) it)).children).isSome := by
    unfold itemWithEnclosure
    by_cases hfind :
        (findFirstTag "enclosure" (itemAfterDesc (fix_relative_urls t) it).children).isSome
    · rw [if_pos hfind]
      exact hfind
    · rw [if_neg hfind, append_children,
        findFirstTag_append_of_none (Option.not_isSome_iff_eq_none.mp hfind)]
      simp [findFirstTag, enclosureElem, Elem.tag]
  rcases Option.isSome_iff_exists.mp hsome with ⟨e, he2⟩
  rw [findFirstTag_itemWithDuration_of_some he2]
  rfl

theorem processItem_hasDuration {p : String → Int} {it out : Elem}
    (h : processItem p it = some out) :
    (findFirstTag (itunesTag "duration") out.children).isSome := by
  rcases processItem_some_inv h with ⟨d, t, url, hd, ht, he, hu, hout⟩
  subst hout
  unfold itemWithDuration
  by_cases hfind : (findFirstTag (itunesTag "duration")
      (itemWithEnclosure url (p url) (itemAfterDesc (fix_relative_urls t) it)).children).isSome
  · rw [if_pos hfind]
    exact hfind
  · rw [if_neg hfind, append_children,
      findFirstTag_append_of_none (Option.not_isSome_iff_eq_none.mp hfind)]
    simp [findFirstTag, durationElem, Elem.tag]

/-- Re-running the per-item transformation on a surviving item reproduces it
exactly, provided the relative-URL repair is idempotent on the item's (already
repaired) description text.  The prober of the second run is arbitrary. -/
theorem processItem_second {p1 p2 : String → Int} {it out : Elem}
    (h : processItem p1 it = some out)
    (hfix : ∀ d, descTextOf out = some d → fix_relative_urls d = d) :
    processItem p2 out = some out := by
  rcases processItem_some_inv h with ⟨d, t, url, hd, ht, he, hu, hout⟩
  have hdesc2 : findFirstTag "description" out.children
      = some (Elem.setText (some (fix_relative_urls t)) d) := by
    subst hout
    exact findFirstTag_itemWithDuration_of_some
      (findFirstTag_itemWithEnclosure_of_some (findFirstTag_itemAfterDesc hd))
  have htext2 : descTextOf out = some (fix_relative_urls t) := by
    unfold descTextOf
    rw [hdesc2, Option.some_bind', setText_text]
  have ht2ne : ¬fix_relative_urls t = "" := fix_relative_urls_ne_empty he
  have hfix2 : fix_relative_urls (fix_relative_urls t) = fix_relative_urls t :=
    hfix _ htext2
  have hit1 : itemAfterDesc (fix_relative_urls t) out = out := by
    unfold itemAfterDesc
    rw [updateFirstTag_eq_self hdesc2 (setText_eq_self (setText_text _ _)),
      elem_eta]
  have hencl : (findFirstTag "enclosure" out.children).isSome :=
    processItem_hasEnclosure h
  have hdur : (findFirstTag (itunesTag "duration") out.children).isSome :=
    processItem_hasDuration h
  unfold processItem
  rw [hdesc2]
  simp only [setText_text]
  rw [if_neg ht2ne]
  simp only [hfix2, hu]
  rw [hit1]
  unfold itemWithEnclosure
  rw [if_pos hencl]
  unfold itemWithDuration
  rw [if_pos hdur]

/-- For an item that already carries both an enclosure and a duration, the
transformed item does not depend on the prober at all. -/
theorem processItem_prober_irrelevant {it : Elem}
    (hencl : (findFirstTag "enclosure" it.children).isSome)
    (hdur : (findFirstTag (itunesTag "duration") it.children).isSome)
    (p1 p2 : String → Int) :
    processItem p1 it = processItem p2 it := by
  unfold processItem
  cases hd : findFirstTag "description" it.children with
  | none => rfl
  | some d =>
    dsimp only
    cases ht : d.text with
    | none => rfl
    | some t =>
      dsimp only
      by_cases he : t = ""
      · simp only [if_pos he]
      · simp only [if_neg he]
        cases hu : extract_mp3_url (fix_relative_urls t) with
        | none => rfl
        | some url =>
          dsimp only
          have hencl1 : (findFirstTag "enclosure"
              (itemAfterDesc (fix_relative_urls t) it).children).isSome := by
            rw [findFirstTag_isSome_iff, itemAfterDesc_map_tag,
              ← findFirstTag_isSome_iff]
            exact hencl
          have hdur1 : (findFirstTag (itunesTag "duration")
              (itemAfterDesc (fix_relative_urls t) it).children).isSome := by
            rw [findFirstTag_isSome_iff, itemAfterDesc_map_tag,
              ← findFirstTag_isSome_iff]
            exact hdur
          unfold itemWithEnclosure
          simp only [if_pos hencl1]
          unfold itemWithDuration
          simp only [if_pos hdur1]

/-! ## Channel and whole-feed lemmas -/

theorem addTagIfAbsent_tag (t : String) (e c : Elem) :
    (addTagIfAbsent t e c).tag = c.tag := by
  unfold addTagIfAbsent
  split
  · rfl
  · exact append_tag _ _

theorem addTagIfAbsent_attrs (t : String) (e c : Elem) :
    (addTagIfAbsent t e c).attrs = c.attrs := by
  unfold addTagIfAbsent
  split
  · rfl
  · exact append_attrs _ _

theorem addTagIfAbsent_text (t : String) (e c : Elem) :
    (addTagIfAbsent t e c).text = c.text := by
  unfold addTagIfAbsent
  split
  · rfl
  · exact append_text _ _

theorem addTagIfAbsent_children (t : String) (e c : Elem) :
    ∃ L, (addTagIfAbsent t e c).children = c.children ++ L ∧ ∀ x ∈ L, x = e := by
  unfold addTagIfAbsent
  split
  · exact ⟨[], by simp⟩
  · exact ⟨[e], by simp [append_children]⟩

/-- `addTagIfAbsent` establishes presence of its tag. -/
theorem addTagIfAbsent_mem (t : String) (e : Elem) (he : e.tag = t) (c : Elem) :
    t ∈ (addTagIfAbsent t e c).children.map Elem.tag := by
  unfold addTagIfAbsent
  by_cases h : (findFirstTag t c.children).isSome
  · rw [if_pos h]
    exact (findFirstTag_isSome_iff t c.children).mp h
  · rw [if_neg h, append_children, List.map_append]
    simp [he]

/-- Presence of any tag is preserved by `addTagIfAbsent`. -/
theorem addTagIfAbsent_mem_mono {tg : String} {c : Elem}
    (h : tg ∈ c.children.map Elem.tag) (t : String) (e : Elem) :
    tg ∈ (addTagIfAbsent t e c).children.map Elem.tag := by
  rcases addTagIfAbsent_children t e c with ⟨L, hL, _⟩
  rw [hL, List.map_append]
  exact List.mem_append_left _ h

theorem addChannelMeta_tag (ch : Elem) : (addChannelMeta ch).tag = ch.tag := by
  unfold addChannelMeta
  simp only [addTagIfAbsent_tag]

theorem addChannelMeta_attrs (ch : Elem) : (addChannelMeta ch).attrs = ch.attrs := by
  unfold addChannelMeta
  simp only [addTagIfAbsent_attrs]

theorem addChannelMeta_text (ch : Elem) : (addChannelMeta ch).text = ch.text := by
  unfold addChannelMeta
  simp only [addTagIfAbsent_text]

theorem addChannelMeta_children (ch : Elem) :
    ∃ L, (addChannelMeta ch).children = ch.children ++ L ∧
      ∀ x ∈ L, x.tag = itunesTag "author" ∨ x.tag = itunesTag "summary" ∨
        x.tag = itunesTag "explicit" ∨ x.tag = itunesTag "category" := by
  unfold addChannelMeta
  rcases addTagIfAbsent_children (itunesTag "author") authorElem ch with ⟨L1, h1, hx1⟩
  rcases addTagIfAbsent_children (itunesTag "summary") summaryElem
    (addTagIfAbsent (itunesTag "author") authorElem ch) with ⟨L2, h2, hx2⟩
  rcases addTagIfAbsent_children (itunesTag "explicit") explicitElem
    (addTagIfAbsent (itunesTag "summary") summaryElem
      (addTagIfAbsent (itunesTag "author") authorElem ch)) with ⟨L3, h3, hx3⟩
  rcases addTagIfAbsent_children (itunesTag "category") categoryElem
    (addTagIfAbsent (itunesTag "explicit") explicitElem
      (addTagIfAbsent (itunesTag "summary") summaryElem
        (addTagIfAbsent (itunesTag "author") authorElem ch))) with ⟨L4, h4, hx4⟩
  refine ⟨L1 ++ L2 ++ L3 ++ L4, ?_, ?_⟩
  · rw [h4, h3, h2, h1]
    simp [List.append_assoc]
  · intro x hx
    simp only [List.mem_append] at hx
    rcases hx with ((hxa | hxb) | hxc) | hxd
    · exact Or.inl (by rw [hx1 x hxa]; rfl)
    · exact Or.inr (Or.inl (by rw [hx2 x hxb]; rfl))
    · exact Or.inr (Or.inr (Or.inl (by rw [hx3 x hxc]; rfl)))
    · exact Or.inr (Or.inr (Or.inr (by rw [hx4 x hxd]; rfl)))

/-- After metadata completion all four channel-level itunes tags are
present. -/
theorem addChannelMeta_has (ch : Elem) :
    itunesTag "author" ∈ (addChannelMeta ch).children.map Elem.tag ∧
    itunesTag "summary" ∈ (addChannelMeta ch).children.map Elem.tag ∧
    itunesTag "explicit" ∈ (addChannelMeta ch).children.map Elem.tag ∧
    itunesTag "category" ∈ (addChannelMeta ch).children.map Elem.tag := by
  unfold addChannelMeta
  refine ⟨?_, ?_, ?_, ?_⟩
  · exact addTagIfAbsent_mem_mono (addTagIfAbsent_mem_mono
      (addTagIfAbsent_mem_mono
        (addTagIfAbsent_mem (itunesTag "author") authorElem rfl ch) _ _) _ _) _ _
  · exact addTagIfAbsent_mem_mono (addTagIfAbsent_mem_mono
      (addTagIfAbsent_mem (itunesTag "summary") summaryElem rfl _) _ _) _ _
  · exact addTagIfAbsent_mem_mono
      (addTagIfAbsent_mem (itunesTag "explicit") explicitElem rfl _) _ _
  · exact addTagIfAbsent_mem (itunesTag "category") categoryElem rfl _

theorem transformChannel_tag (p : String → Int) (ch : Elem) :
    (transformChannel p ch).tag = ch.tag := by
  unfold transformChannel
  exact addChannelMeta_tag ch

theorem transformChannel_children (p : String → Int) (ch : Elem) :
    (transformChannel p ch).children
      = (addChannelMeta ch).children.filterMap
          (fun e => if e.tag = "item" then processItem p e else some e) := rfl

/-- Filtering the items out of the processed child list is the same as
processing the original items. -/
theorem filter_item_filterMap_step (p : String → Int) (l : List Elem) :
    ((l.filterMap (fun e => if e.tag = "item" then processItem p e else some e)).filter
        (fun e => e.tag == "item"))
      = (l.filter (fun e => e.tag == "item")).filterMap (processItem p) := by
  induction l with
  | nil => rfl
  | cons e es ih =>
    by_cases he : e.tag = "item"
    · rw [List.filterMap_cons, if_pos he]
      cases hp : processItem p e with
      | none =>
        rw [List.filter_cons, if_pos (by simp [he])]
        rw [List.filterMap_cons, hp]
        exact ih
      | some out =>
        rw [List.filter_cons_of_pos (by simp [processItem_tag hp, he])]
        rw [List.filter_cons, if_pos (by simp [he])]
        rw [List.filterMap_cons, hp, ih]
    · rw [List.filterMap_cons, if_neg he]
      rw [List.filter_cons_of_neg (by simp [he])]
      rw [List.filter_cons_of_neg (by simp [he])]
      exact ih

/-- The four synthesized metadata tags are not items. -/
theorem metaTags_ne_item :
    ¬itunesTag "author" = "item" ∧ ¬itunesTag "summary" = "item" ∧
    ¬itunesTag "explicit" = "item" ∧ ¬itunesTag "category" = "item" := by
  refine ⟨?_, ?_, ?_, ?_⟩ <;> decide

/-- The items of the transformed channel are exactly the processed items of
the input channel, in order. -/
theorem itemsOfChannel_transformChannel (p : String → Int) (ch : Elem) :
    itemsOfChannel (transformChannel p ch)
      = (itemsOfChannel ch).filterMap (processItem p) := by
  unfold itemsOfChannel
  rw [transformChannel_children]
  rcases addChannelMeta_children ch with ⟨L, hL, hx⟩
  rw [hL, List.filterMap_append, List.filter_append,
    filter_item_filterMap_step]
  have hLnil : ((L.filterMap
      (fun e => if e.tag = "item" then processItem p e else some e)).filter
        (fun e => e.tag == "item")) = [] := by
    rw [List.filter_eq_nil_iff]
    intro a ha
    rcases List.mem_filterMap.mp ha with ⟨x, hxL, hxa⟩
    have hxtag : ¬x.tag = "item" := by
      rcases hx x hxL with h | h | h | h <;> rw [h] <;> decide
    rw [if_neg hxtag] at hxa
    cases hxa
    simp [hxtag]
  rw [hLnil, List.append_nil]

theorem transform_feed_ok_inv {p : String → Int} {root out : Elem}
    (h : transform_feed p root = Except.ok out) :
    (findFirstTag "channel" root.children).isSome ∧
    out = Elem.mk root.tag root.attrs root.text
      (updateFirstTag "channel" (transformChannel p) root.children) := by
  unfold transform_feed at h
  cases hc : findFirstTag "channel" root.children with
  | none => rw [hc] at h; exact absurd h (by simp)
  | some ch =>
    rw [hc] at h
    simp only [Except.ok.injEq] at h
    exact ⟨by simp, h.symm⟩

theorem transform_feed_isOk_iff (p : String → Int) (root : Elem) :
    isOkE (transform_feed p root) = true
      ↔ (findFirstTag "channel" root.children).isSome := by
  unfold transform_feed isOkE
  cases hc : findFirstTag "channel" root.children with
  | none => simp
  | some ch => simp

theorem transform_feed_error_of_none {p : String → Int} {root : Elem}
    (h : findFirstTag "channel" root.children = none) :
    transform_feed p root = Except.error "Error: No channel element found." := by
  unfold transform_feed
  rw [h]

/-- The channel of the transformed document is the transformed channel of
the source. -/
theorem channelOf_transformed {p : String → Int} {root out : Elem}
    (h : transform_feed p root = Except.ok out) :
    ∃ ch, channelOf root = some ch ∧ channelOf out = some (transformChannel p ch) := by
  rcases transform_feed_ok_inv h with ⟨hsome, hout⟩
  rcases Option.isSome_iff_exists.mp hsome with ⟨ch, hch⟩
  refine ⟨ch, hch, ?_⟩
  have hsee : channelOf out = findFirstTag "channel"
      (updateFirstTag "channel" (transformChannel p) root.children) := by
    rw [hout]
    rfl
  rw [hsee, findFirstTag_updateFirstTag (fun e => transformChannel_tag p e), hch]
  rfl

/-- The items of the output document are exactly the processed input items,
in input order. -/
theorem docItems_transformed {p : String → Int} {root out : Elem}
    (h : transform_feed p root = Except.ok out) :
    docItems out = (docItems root).filterMap (processItem p) := by
  rcases channelOf_transformed h with ⟨ch, hin, hout⟩
  unfold docItems
  rw [hin, hout]
  exact itemsOfChannel_transformChannel p ch

/-! ## Lemmas on the audio-source regular expression -/

theorem listEqCI_length {a b : List Char} (h : listEqCI a b = true) :
    a.length = b.length := by
  induction a generalizing b with
  | nil => cases b with
    | nil => rfl
    | cons x xs => simp [listEqCI] at h
  | cons c cs ih =>
    cases b with
    | nil => simp [listEqCI] at h
    | cons x xs =>
      simp only [listEqCI, Bool.and_eq_true] at h
      simp [ih h.2]

/-- The group returned by `tryK` is `M.take (j+4)` for some `1 ≤ j` with
`.mp3` (case-insensitively) at offset `j`. -/
theorem tryK_inv {k : Nat} {M g : List Char} (h : tryK k M = some g) :
    ∃ j, 1 ≤ j ∧ j + 4 ≤ M.length ∧ g = M.take (j + 4) ∧
      listEqCI ((M.drop j).take 4) ['.', 'm', 'p', '3'] = true := by
  induction k with
  | zero => simp [tryK] at h
  | succ k ih =>
    unfold tryK at h
    by_cases hc : listEqCI ((M.drop (k + 1)).take 4) ['.', 'm', 'p', '3'] = true
    · rw [if_pos hc] at h
      simp only [Option.some.injEq] at h
      refine ⟨k + 1, by omega, ?_, h.symm, hc⟩
      have hlen := listEqCI_length hc
      rw [List.length_take, List.length_drop] at hlen
      have hlen4 : min 4 (M.length - (k + 1)) = 4 := by
        simpa using hlen
      have : 4 ≤ M.length - (k + 1) := by
        rcases Nat.le_total 4 (M.length - (k + 1)) with hle | hle
        · exact hle
        · rw [Nat.min_eq_right hle] at hlen4
          omega
      omega
    · rw [if_neg hc] at h
      exact ih h

/-- Any group found by `tryK` is nonempty and ends in `.mp3`
(case-insensitively). -/
theorem tryK_mp3 {k : Nat} {M g : List Char} (h : tryK k M = some g) :
    ¬g = [] ∧ listEqCI (g.drop (g.length - 4)) ['.', 'm', 'p', '3'] = true := by
  rcases tryK_inv h with ⟨j, hj1, hjm, hg, hci⟩
  have hglen : g.length = j + 4 := by
    rw [hg, List.length_take]
    omega
  constructor
  · intro hnil
    rw [hnil] at hglen
    simp at hglen
  · have hdrop : g.drop (g.length - 4) = (M.drop j).take 4 := by
      rw [hglen, hg]
      have : j + 4 - 4 = j := by omega
      rw [this, List.take_drop]
    rw [hdrop]
    exact hci

theorem matchSrcTail_mp3 {l g : List Char} (h : matchSrcTail l = some g) :
    ¬g = [] ∧ listEqCI (g.drop (g.length - 4)) ['.', 'm', 'p', '3'] = true := by
  unfold matchSrcTail at h
  exact tryK_mp3 h

theorem tryJ_mp3 {rest g : List Char} {j : Nat} (h : tryJ rest j = some g) :
    ¬g = [] ∧ listEqCI (g.drop (g.length - 4)) ['.', 'm', 'p', '3'] = true := by
  induction j with
  | zero => simp [tryJ] at h
  | succ j ih =>
    unfold tryJ at h
    split at h
    · split at h
      · next g2 hst =>
          simp only [Option.some.injEq] at h
          subst h
          exact matchSrcTail_mp3 hst
      · exact ih h
    · exact ih h

theorem matchAudioAt_mp3 {l g : List Char} (h : matchAudioAt l = some g) :
    ¬g = [] ∧ listEqCI (g.drop (g.length - 4)) ['.', 'm', 'p', '3'] = true := by
  unfold matchAudioAt at h
  split at h
  · exact tryJ_mp3 h
  · exact absurd h (by simp)

/-- Any match returned by the audio-source search is nonempty and ends in
`.mp3` case-insensitively. -/
theorem searchAudio_mp3 {l g : List Char} (h : searchAudio l = some g) :
    ¬g = [] ∧ listEqCI (g.drop (g.length - 4)) ['.', 'm', 'p', '3'] = true := by
  induction l with
  | nil => simp [searchAudio] at h
  | cons c cs ih =>
    unfold searchAudio at h
    split at h
    · next g2 hm =>
        simp only [Option.some.injEq] at h
        subst h
        exact matchAudioAt_mp3 hm
    · exact ih h

theorem string_data_append (s t : String) : (s ++ t).data = s.data ++ t.data := rfl

theorem string_mk_data (s : String) : String.mk s.data = s := by
  cases s
  rfl

theorem string_mk_eq_empty_iff (l : List Char) : String.mk l = "" ↔ l = [] := by
  constructor
  · intro h
    have := congrArg String.data h
    simpa using this
  · intro h
    rw [h]

theorem strStartsWith_mk_slash (g : List Char) :
    strStartsWith (String.mk g) "/" = true ↔ g.head? = some '/' := by
  cases g with
  | nil =>
    constructor
    · intro h
      exact absurd h (by decide)
    · intro h
      exact absurd h (by simp)
  | cons c cs =>
    show (List.isPrefixOf ['/'] (c :: cs)) = true ↔ (c :: cs).head? = some '/'
    simp only [List.isPrefixOf, Bool.and_eq_true, beq_iff_eq, List.head?_cons,
      Option.some.injEq]
    constructor
    · rintro ⟨h1, _⟩
      exact h1.symm
    · intro h1
      exact ⟨h1.symm, by simp [List.isPrefixOf]⟩

/-- Characterization of a successful extraction: the returned URL is the
first regex match of the unescaped description, nonempty, `.mp3`-suffixed
(case-insensitively), prefixed with the base URL exactly when the matched
path is site-root-relative. -/
theorem extract_mp3_url_some_inv {d u : String}
    (h : extract_mp3_url d = some u) :
    ∃ g, searchAudio (unescapeHtml d).data = some g ∧ ¬g = [] ∧
      listEqCI (g.drop (g.length - 4)) ['.', 'm', 'p', '3'] = true ∧
      (g.head? = some '/' → u = BASE_URL ++ String.mk g) ∧
      (¬g.head? = some '/' → u = String.mk g) ∧
      ¬u = "" := by
  unfold extract_mp3_url at h
  cases hs : searchAudio (unescapeHtml d).data with
  | none =>
    simp only [hs] at h
    exact absurd h (by simp)
  | some g =>
    simp only [hs] at h
    rcases searchAudio_mp3 hs with ⟨hne, hci⟩
    by_cases hsl : strStartsWith (String.mk g) "/" = true
    · rw [if_pos hsl] at h
      simp only [Option.some.injEq] at h
      refine ⟨g, rfl, hne, hci, fun _ => h.symm, ?_, ?_⟩
      · intro hcontra
        exact absurd ((strStartsWith_mk_slash g).mp hsl) hcontra
      · rw [← h]
        intro hc
        have hdata := congrArg String.data hc
        rw [string_data_append] at hdata
        have hb : BASE_URL.data = [] :=
          (List.append_eq_nil.mp (hdata : BASE_URL.data ++ g = ([] : List Char))).1
        exact absurd hb (by decide)
    · rw [if_neg hsl] at h
      simp only [Option.some.injEq] at h
      refine ⟨g, rfl, hne, hci, ?_, fun _ => h.symm, ?_⟩
      · intro hhead
        exact absurd ((strStartsWith_mk_slash g).mpr hhead) hsl
      · rw [← h]
        intro hc
        exact hne ((string_mk_eq_empty_iff g).mp hc)

theorem extract_mp3_url_none_iff (d : String) :
    extract_mp3_url d = none ↔ searchAudio (unescapeHtml d).data = none := by
  cases hs : searchAudio (unescapeHtml d).data with
  | none =>
    constructor
    · intro _
      rfl
    · intro _
      unfold extract_mp3_url
      simp only [hs]
  | some g =>
    constructor
    · intro hc
      unfold extract_mp3_url at hc
      simp only [hs] at hc
      by_cases hsl : strStartsWith (String.mk g) "/" = true
      · rw [if_pos hsl] at hc
        exact absurd hc (by simp)
      · rw [if_neg hsl] at hc
        exact absurd hc (by simp)
    · intro hc
      exact absurd hc (by simp)

/-! ## Lemmas on the relative-URL rewriting regular expression -/

theorem dropLit_inv {p l r : List Char} (h : dropLit p l = some r) : l = p ++ r := by
  induction p generalizing l with
  | nil =>
    simp only [dropLit, Option.some.injEq] at h
    rw [h]
    rfl
  | cons c ps ih =>
    cases l with
    | nil => simp [dropLit] at h
    | cons x xs =>
      unfold dropLit at h
      by_cases hx : x == c
      · rw [if_pos hx] at h
        have hxc : x = c := by simpa using hx
        subst hxc
        rw [List.cons_append, ← ih h]
      · rw [if_neg hx] at h
        exact absurd h (by simp)

theorem dropWhile_head_not {p : Char → Bool} {l : List Char} {x : Char}
    {xs : List Char} (h : l.dropWhile p = x :: xs) : p x = false := by
  induction l with
  | nil => simp [List.dropWhile] at h
  | cons c cs ih =>
    rw [List.dropWhile_cons] at h
    by_cases hc : p c = true
    · rw [if_pos hc] at h
      exact ih h
    · rw [if_neg hc] at h
      simp only [List.cons.injEq] at h
      rw [← h.1]
      simpa using hc

theorem matchAttrValue_inv {r v rest : List Char}
    (h : matchAttrValue r = some (v, rest)) :
    ∃ q q2, isQuoteChar q = true ∧ isQuoteChar q2 = true ∧
      r = q :: '/' :: (v ++ q2 :: rest) ∧
      ¬v = [] ∧ ¬v.head? = some '/' ∧ ∀ x ∈ v, isQuoteChar x = false := by
  unfold matchAttrValue at h
  split at h
  · next q c2 rest2 =>
    by_cases hcond : (isQuoteChar q && !(c2 == '/') && !isQuoteChar c2) = true
    · rw [if_pos hcond] at h
      simp only [Bool.and_eq_true, Bool.not_eq_eq_eq_not, Bool.not_true] at hcond
      rcases hcond with ⟨⟨hq, hc2slash⟩, hc2q⟩
      cases hdw : rest2.dropWhile (fun c => !isQuoteChar c) with
      | nil =>
        rw [hdw] at h
        exact absurd h (by simp)
      | cons q2 rest3 =>
        rw [hdw] at h
        simp only [Option.some.injEq, Prod.mk.injEq] at h
        rcases h with ⟨hv, hrest⟩
        subst hrest
        refine ⟨q, q2, hq, ?_, ?_, ?_, ?_, ?_⟩
        · have := dropWhile_head_not hdw
          simpa using this
        · rw [← hv]
          have hsplit : rest2.takeWhile (fun c => !isQuoteChar c) ++
              rest2.dropWhile (fun c => !isQuoteChar c) = rest2 :=
            List.takeWhile_append_dropWhile _ _
          rw [hdw] at hsplit
          rw [List.cons_append, hsplit]
        · rw [← hv]
          simp
        · rw [← hv]
          intro hcontra
          simp only [List.head?_cons, Option.some.injEq] at hcontra
          rw [hcontra] at hc2slash
          simp at hc2slash
        · rw [← hv]
          intro x hx
          rcases List.mem_cons.mp hx with hx1 | hx2
          · rw [hx1]
            simpa using hc2q
          · have := List.mem_takeWhile_imp hx2
            simpa using this
    · rw [if_neg hcond] at h
      exact absurd h (by simp)
  · exact absurd h (by simp)

theorem matchAttrAt_inv {l a v rest : List Char}
    (h : matchAttrAt l = some (a, v, rest)) :
    (a = ['s', 'r', 'c'] ∨ a = ['h', 'r', 'e', 'f']) ∧
    ∃ q q2, isQuoteChar q = true ∧ isQuoteChar q2 = true ∧
      l = a ++ '=' :: q :: '/' :: (v ++ q2 :: rest) ∧
      ¬v = [] ∧ ¬v.head? = some '/' ∧ ∀ x ∈ v, isQuoteChar x = false := by
  unfold matchAttrAt at h
  split at h
  · next r hsrc =>
    split at h
    · next v2 rest2 hmv =>
      simp only [Option.some.injEq, Prod.mk.injEq] at h
      rcases h with ⟨ha, hv, hrest⟩
      subst ha
      subst hv
      subst hrest
      rcases matchAttrValue_inv hmv with ⟨q, q2, hq, hq2, hr, hvne, hvh, hvq⟩
      refine ⟨Or.inl rfl, q, q2, hq, hq2, ?_, hvne, hvh, hvq⟩
      rw [dropLit_inv hsrc, hr]
      rfl
    · exact absurd h (by simp)
  · next hsrc =>
    split at h
    · next r hhref =>
      split at h
      · next v2 rest2 hmv =>
        simp only [Option.some.injEq, Prod.mk.injEq] at h
        rcases h with ⟨ha, hv, hrest⟩
        subst ha
        subst hv
        subst hrest
        rcases matchAttrValue_inv hmv with ⟨q, q2, hq, hq2, hr, hvne, hvh, hvq⟩
        refine ⟨Or.inr rfl, q, q2, hq, hq2, ?_, hvne, hvh, hvq⟩
        rw [dropLit_inv hhref, hr]
        rfl
      · exact absurd h (by simp)
    · exact absurd h (by simp)

/-- Protocol-relative values (`//…`) never match the rewrite pattern: the
negative lookahead rejects them. -/
theorem matchAttrValue_protocol_relative (q : Char) (r : List Char) :
    matchAttrValue (q :: '/' :: '/' :: r) = none := by
  simp [matchAttrValue]

theorem matchAttrAt_rest_lt {l a v rest : List Char}
    (h : matchAttrAt l = some (a, v, rest)) : rest.length < l.length := by
  rcases matchAttrAt_inv h with ⟨_, q, q2, _, _, hl, _, _, _⟩
  rw [hl]
  simp only [List.length_append, List.length_cons]
  omega

/-- Fuel above the list length is irrelevant for the substitution scan. -/
theorem fixSubGo_fuel (n : Nat) : ∀ (m : Nat) (l : List Char),
    l.length ≤ n → l.length ≤ m → fixSubGo n l = fixSubGo m l := by
  induction n with
  | zero =>
    intro m l h1 h2
    cases l with
    | nil => cases m <;> rfl
    | cons c cs => simp at h1
  | succ n ih =>
    intro m l h1 h2
    cases l with
    | nil => cases m <;> rfl
    | cons c cs =>
      cases m with
      | zero => simp at h2
      | succ m2 =>
        show fixSubGo (n + 1) (c :: cs) = fixSubGo (m2 + 1) (c :: cs)
        unfold fixSubGo
        cases hm : matchAttrAt (c :: cs) with
        | some triple =>
          rcases triple with ⟨a, v, rest⟩
          dsimp only
          have hlt : rest.length < cs.length + 1 := matchAttrAt_rest_lt hm
          simp only [List.length_cons] at h1 h2
          rw [ih m2 rest (by omega) (by omega)]
        | none =>
          dsimp only
          simp only [List.length_cons] at h1 h2
          rw [ih m2 cs (by omega) (by omega)]

theorem fixSub_nil : fixSub [] = [] := rfl

theorem fixSub_cons_match {c : Char} {cs a v rest : List Char}
    (h : matchAttrAt (c :: cs) = some (a, v, rest)) :
    fixSub (c :: cs) = (a ++ replBase ++ v ++ ['"']) ++ fixSub rest := by
  have hlt : rest.length < cs.length + 1 := matchAttrAt_rest_lt h
  have h1 : fixSub (c :: cs)
      = (a ++ replBase ++ v ++ ['"']) ++ fixSubGo cs.length rest := by
    show fixSubGo (cs.length + 1) (c :: cs) = _
    conv_lhs => unfold fixSubGo
    simp only [h]
  have h2 : fixSubGo cs.length rest = fixSub rest :=
    fixSubGo_fuel cs.length rest.length rest (by omega) (by omega)
  rw [h1, h2]

theorem fixSub_cons_nomatch {c : Char} {cs : List Char}
    (h : matchAttrAt (c :: cs) = none) :
    fixSub (c :: cs) = c :: fixSub cs := by
  have h1 : fixSub (c :: cs) = c :: fixSubGo cs.length cs := by
    show fixSubGo (cs.length + 1) (c :: cs) = _
    conv_lhs => unfold fixSubGo
    simp only [h]
  rw [h1]
  rfl

theorem fix_relative_urls_eq_fixSub (s : String) :
    fix_relative_urls s = String.mk (fixSub s.data) := by
  unfold fix_relative_urls fixSub
  by_cases h : s = ""
  · rw [if_pos h]
    subst h
    rfl
  · rw [if_neg h]

/-- A string in which no suffix matches the pattern is left unchanged. -/
theorem fixSub_id_of_nomatch {l : List Char}
    (h : ∀ l1 l2, l = l1 ++ l2 → matchAttrAt l2 = none) : fixSub l = l := by
  induction l with
  | nil => rfl
  | cons c cs ih =>
    rw [fixSub_cons_nomatch (h [] (c :: cs) rfl)]
    rw [ih]
    intro l1 l2 hsplit
    exact h (c :: l1) l2 (by rw [hsplit]; rfl)

/-! ## Lemmas on the namespace de-duplication -/

theorem itunesDecl_length (uri : List Char) :
    (itunesDecl uri).length = uri.length + 16 := by
  simp [itunesDecl, xmlnsItunesLit]

theorem repDecl_length (uri : List Char) (k : Nat) :
    (repDecl uri k).length = k * (uri.length + 16) := by
  induction k with
  | zero => simp [repDecl]
  | succ k ih =>
    show (itunesDecl uri ++ repDecl uri k).length = (k + 1) * (uri.length + 16)
    rw [List.length_append, ih, itunesDecl_length]
    ring

theorem nsDeclAt_nonspace {c : Char} (hc : isPySpace c = false)
    (cs : List Char) : nsDeclAt (c :: cs) = none := by
  unfold nsDeclAt
  rw [List.takeWhile_cons, hc]
  rfl

theorem dedupGo_id_of_nospace {l : List Char}
    (h : ∀ c ∈ l, isPySpace c = false) : ∀ fuel, dedupGo fuel l = l := by
  induction l with
  | nil => intro fuel; cases fuel <;> rfl
  | cons c cs ih =>
    intro fuel
    cases fuel with
    | zero => rfl
    | succ f =>
      have hns : nsDeclAt (c :: cs) = none :=
        nsDeclAt_nonspace (h c (List.mem_cons_self _ _)) cs
      show dedupGo (f + 1) (c :: cs) = c :: cs
      conv_lhs => unfold dedupGo
      simp only [hns]
      rw [ih (fun x hx => h x (List.mem_cons_of_mem _ hx)) f]

theorem dropLit_append_self (p r : List Char) : dropLit p (p ++ r) = some r := by
  induction p with
  | nil => rfl
  | cons c ps ih =>
    show dropLit (c :: ps) (c :: (ps ++ r)) = some r
    unfold dropLit
    simp [ih]

theorem takeWhile_noquote_append {uri : List Char}
    (hq : ∀ c ∈ uri, ¬c = '"') (r : List Char) :
    (uri ++ '"' :: r).takeWhile (fun c => !(c == '"')) = uri := by
  induction uri with
  | nil => simp [List.takeWhile_cons]
  | cons u us ih =>
    rw [List.cons_append, List.takeWhile_cons]
    have hu : ¬u = '"' := hq u (List.mem_cons_self _ _)
    have hu2 : (!(u == '"')) = true := by simpa using hu
    rw [hu2]
    simp only [if_true]
    rw [ih (fun c hc => hq c (List.mem_cons_of_mem _ hc))]

theorem dropWhile_noquote_append {uri : List Char}
    (hq : ∀ c ∈ uri, ¬c = '"') (r : List Char) :
    (uri ++ '"' :: r).dropWhile (fun c => !(c == '"')) = '"' :: r := by
  induction uri with
  | nil => simp [List.dropWhile_cons]
  | cons u us ih =>
    rw [List.cons_append, List.dropWhile_cons]
    have hu : ¬u = '"' := hq u (List.mem_cons_self _ _)
    have hu2 : (!(u == '"')) = true := by simpa using hu
    rw [hu2]
    simp only [if_true]
    exact ih (fun c hc => hq c (List.mem_cons_of_mem _ hc))

/-- The declaration parser consumes exactly one declaration. -/
theorem nsDeclAt_decl {uri : List Char} (hq : ∀ c ∈ uri, ¬c = '"')
    (r : List Char) :
    nsDeclAt (itunesDecl uri ++ r) = some (itunesDecl uri, r) := by
  have hshape : itunesDecl uri ++ r
      = ' ' :: (xmlnsItunesLit ++ (uri ++ '"' :: r)) := by
    simp [itunesDecl, List.append_assoc]
  have hX : xmlnsItunesLit ++ (uri ++ '"' :: r)
      = 'x' :: (['m', 'l', 'n', 's', ':', 'i', 't', 'u', 'n', 'e', 's', '=', '"']
          ++ (uri ++ '"' :: r)) := by
    simp [xmlnsItunesLit]
  have hsp : isPySpace ' ' = true := rfl
  have hxsp : isPySpace 'x' = false := rfl
  have htw : (itunesDecl uri ++ r).takeWhile isPySpace = [' '] := by
    rw [hshape, List.takeWhile_cons, hsp]
    simp only [if_true]
    rw [hX, List.takeWhile_cons, hxsp]
    rfl
  have hdw : (itunesDecl uri ++ r).dropWhile isPySpace
      = xmlnsItunesLit ++ (uri ++ '"' :: r) := by
    rw [hshape, List.dropWhile_cons, hsp]
    simp only [if_true]
    rw [hX, List.dropWhile_cons, hxsp]
    simp only [Bool.false_eq_true, if_false]
  unfold nsDeclAt
  simp only [htw, hdw]
  rw [dropLit_append_self]
  simp only [takeWhile_noquote_append hq, dropWhile_noquote_append hq]
  simp [itunesDecl, List.append_assoc]

/-- The greedy `(…)+` loop consumes exactly the consecutive declarations. -/
theorem declRunGo_reps {uri : List Char} (hq : ∀ c ∈ uri, ¬c = '"')
    {post : List Char} (hpost : nsDeclAt post = none) :
    ∀ (k fuel : Nat), k ≤ fuel →
      declRunGo fuel (repDecl uri k ++ post) = (k, post) := by
  intro k
  induction k with
  | zero =>
    intro fuel _
    show declRunGo fuel post = (0, post)
    cases fuel with
    | zero => rfl
    | succ f =>
      conv_lhs => unfold declRunGo
      simp only [hpost]
  | succ k ih =>
    intro fuel hfuel
    cases fuel with
    | zero => omega
    | succ f =>
      have hshape : repDecl uri (k + 1) ++ post
          = itunesDecl uri ++ (repDecl uri k ++ post) := by
        show (itunesDecl uri ++ repDecl uri k) ++ post = _
        rw [List.append_assoc]
      rw [hshape]
      conv_lhs => unfold declRunGo
      simp only [nsDeclAt_decl hq]
      rw [ih f (by omega)]

/-- Scanning over a whitespace-free prefix copies it unchanged. -/
theorem dedupGo_nospace_append (pre : List Char)
    (h : ∀ c ∈ pre, isPySpace c = false) :
    ∀ (rest : List Char) (fuel : Nat), pre.length ≤ fuel →
      dedupGo fuel (pre ++ rest) = pre ++ dedupGo (fuel - pre.length) rest := by
  induction pre with
  | nil =>
    intro rest fuel _
    simp
  | cons c pre2 ih =>
    intro rest fuel hfuel
    cases fuel with
    | zero => simp at hfuel
    | succ f =>
      have hns : nsDeclAt (c :: (pre2 ++ rest)) = none :=
        nsDeclAt_nonspace (h c (List.mem_cons_self _ _)) _
      show dedupGo (f + 1) (c :: (pre2 ++ rest)) = _
      conv_lhs => unfold dedupGo
      simp only [hns]
      have hlen : pre2.length ≤ f := by
        simp only [List.length_cons] at hfuel
        omega
      rw [ih (fun x hx => h x (List.mem_cons_of_mem _ hx)) rest f hlen]
      show c :: (pre2 ++ dedupGo (f - pre2.length) rest)
          = (c :: pre2) ++ dedupGo (f + 1 - (pre2.length + 1)) rest
      rw [List.cons_append]
      have : f + 1 - (pre2.length + 1) = f - pre2.length := by omega
      rw [this]

/-- A run of `n+2` consecutive identical itunes declarations collapses to
one (the first). -/
theorem dedupGo_collapse {uri : List Char} (hq : ∀ c ∈ uri, ¬c = '"')
    (n : Nat) {post : List Char} (hpost : nsDeclAt post = none)
    (hpostid : ∀ f, dedupGo f post = post) (fuel : Nat)
    (hfuel : n + 1 ≤ fuel) :
    dedupGo (fuel + 1) (repDecl uri (n + 2) ++ post)
      = itunesDecl uri ++ post := by
  have hshape : repDecl uri (n + 2) ++ post
      = itunesDecl uri ++ (repDecl uri (n + 1) ++ post) := by
    show (itunesDecl uri ++ repDecl uri (n + 1)) ++ post = _
    rw [List.append_assoc]
  have hcons : itunesDecl uri ++ (repDecl uri (n + 1) ++ post)
      = ' ' :: ((xmlnsItunesLit ++ (uri ++ ['"'])) ++ (repDecl uri (n + 1) ++ post)) := by
    simp [itunesDecl]
  have hns : nsDeclAt (' ' :: ((xmlnsItunesLit ++ (uri ++ ['"']))
      ++ (repDecl uri (n + 1) ++ post)))
      = some (itunesDecl uri, repDecl uri (n + 1) ++ post) := by
    rw [← hcons]
    exact nsDeclAt_decl hq _
  rw [hshape, hcons]
  conv_lhs => unfold dedupGo
  simp only [hns]
  rw [declRunGo_reps hq hpost (n + 1) (fuel + 1) (by omega)]
  simp only [Nat.succ_ne_zero]
  have hne : ((n + 1 : Nat) == 0) = false := by simp
  rw [hne]
  simp only [Bool.false_eq_true, if_false]
  rw [hpostid fuel]

theorem isPrefixOf_append_self (a b : List Char) :
    a.isPrefixOf (a ++ b) = true := by
  induction a with
  | nil => simp [List.isPrefixOf]
  | cons c cs ih => simp [List.isPrefixOf, ih]

theorem strStartsWith_base_append (g : List Char) :
    strStartsWith (BASE_URL ++ String.mk g) BASE_URL = true := by
  unfold strStartsWith
  rw [string_data_append]
  exact isPrefixOf_append_self _ _

/-- An item without enclosures gets exactly one synthesized enclosure. -/
theorem processItem_fresh_enclosure {p : String → Int} {it out : Elem}
    (h : processItem p it = some out) (hno : enclosuresOf it = []) :
    ∃ t u, descTextOf it = some t ∧ ¬t = "" ∧
      extract_mp3_url (fix_relative_urls t) = some u ∧
      enclosuresOf out = [enclosureElem u (p u)] := by
  rcases processItem_some_inv h with ⟨d, t, url, hd, ht, he, hu, hout⟩
  have hdesc : descTextOf it = some t := by
    unfold descTextOf
    rw [hd, Option.some_bind', ht]
  refine ⟨t, url, hdesc, he, hu, ?_⟩
  have hmem : ¬"enclosure" ∈ it.children.map Elem.tag :=
    (filter_tag_eq_nil_iff _ _).mp hno
  have hmem1 : ¬"enclosure"
      ∈ (itemAfterDesc (fix_relative_urls t) it).children.map Elem.tag := by
    rw [itemAfterDesc_map_tag]
    exact hmem
  have hfind1 : findFirstTag "enclosure"
      (itemAfterDesc (fix_relative_urls t) it).children = none :=
    (findFirstTag_eq_none_iff _ _).mpr hmem1
  have henc : (itemWithEnclosure url (p url)
      (itemAfterDesc (fix_relative_urls t) it)).children
      = (itemAfterDesc (fix_relative_urls t) it).children
        ++ [enclosureElem url (p url)] := by
    unfold itemWithEnclosure
    rw [if_neg (by simp [hfind1]), append_children]
  have hfilter1 : (itemAfterDesc (fix_relative_urls t) it).children.filter
      (fun e => e.tag == "enclosure") = [] :=
    (filter_tag_eq_nil_iff _ _).mpr hmem1
  have hfilter_encl : ([enclosureElem url (p url)].filter
      (fun e => e.tag == "enclosure")) = [enclosureElem url (p url)] := by
    simp [enclosureElem, Elem.tag]
  subst hout
  unfold enclosuresOf
  rcases itemWithDuration_children (p url)
      (itemWithEnclosure url (p url) (itemAfterDesc (fix_relative_urls t) it))
    with hc | ⟨_, hc⟩ <;> rw [hc, henc]
  · rw [List.filter_append, hfilter1, hfilter_encl]
    rfl
  · rw [List.filter_append, List.filter_append, hfilter1, hfilter_encl]
    have hdur : ([durationElem (p url)].filter
        (fun e => e.tag == "enclosure")) = [] := by
      simp only [List.filter_cons, List.filter_nil]
      rw [if_neg (by simp [durationElem, Elem.tag]; decide)]

    rw [hdur]
    rfl

/-- An item without a duration gets exactly one synthesized duration. -/
theorem processItem_fresh_duration {p : String → Int} {it out : Elem}
    (h : processItem p it = some out) (hno : durationsOf it = []) :
    ∃ t u, descTextOf it = some t ∧ ¬t = "" ∧
      extract_mp3_url (fix_relative_urls t) = some u ∧
      durationsOf out = [durationElem (p u)] := by
  rcases processItem_some_inv h with ⟨d, t, url, hd, ht, he, hu, hout⟩
  have hdesc : descTextOf it = some t := by
    unfold descTextOf
    rw [hd, Option.some_bind', ht]
  refine ⟨t, url, hdesc, he, hu, ?_⟩
  have hmem : ¬itunesTag "duration" ∈ it.children.map Elem.tag :=
    (filter_tag_eq_nil_iff _ _).mp hno
  have hmem1 : ¬itunesTag "duration"
      ∈ (itemAfterDesc (fix_relative_urls t) it).children.map Elem.tag := by
    rw [itemAfterDesc_map_tag]
    exact hmem
  have hmem2 : ¬itunesTag "duration"
      ∈ (itemWithEnclosure url (p url)
          (itemAfterDesc (fix_relative_urls t) it)).children.map Elem.tag := by
    rcases itemWithEnclosure_children url (p url)
        (itemAfterDesc (fix_relative_urls t) it) with hc | ⟨_, hc⟩ <;> rw [hc]
    · exact hmem1
    · rw [List.map_append]
      intro hcontra
      rcases List.mem_append.mp hcontra with hl | hr
      · exact hmem1 hl
      · simp only [List.map_cons, List.map_nil, List.mem_singleton] at hr
        have : (enclosureElem url (p url)).tag = "enclosure" := rfl
        rw [this] at hr
        exact absurd hr (by decide)
  have hfind2 : findFirstTag (itunesTag "duration")
      (itemWithEnclosure url (p url)
        (itemAfterDesc (fix_relative_urls t) it)).children = none :=
    (findFirstTag_eq_none_iff _ _).mpr hmem2
  have hdurc : (itemWithDuration (p url)
      (itemWithEnclosure url (p url) (itemAfterDesc (fix_relative_urls t) it))).children
      = (itemWithEnclosure url (p url)
          (itemAfterDesc (fix_relative_urls t) it)).children
        ++ [durationElem (p url)] := by
    unfold itemWithDuration
    rw [if_neg (by simp [hfind2]), append_children]
  subst hout
  unfold durationsOf
  rw [hdurc, List.filter_append]
  have hfilter2 : (itemWithEnclosure url (p url)
      (itemAfterDesc (fix_relative_urls t) it)).children.filter
        (fun e => e.tag == itunesTag "duration") = [] :=
    (filter_tag_eq_nil_iff _ _).mpr hmem2
  rw [hfilter2]
  have : ([durationElem (p url)].filter
      (fun e => e.tag == itunesTag "duration")) = [durationElem (p url)] := by
    simp [durationElem, Elem.tag]
  rw [this]
  rfl

theorem updateFirstTag_congr_found {t : String} {l : List Elem} {e : Elem}
    {f g : Elem → Elem} (hfind : findFirstTag t l = some e) (hfg : f e = g e) :
    updateFirstTag t f l = updateFirstTag t g l := by
  induction l with
  | nil => rfl
  | cons a es ih =>
    by_cases ha : a.tag = t
    · simp only [findFirstTag, if_pos ha, Option.some.injEq] at hfind
      subst hfind
      simp [updateFirstTag, ha, hfg]
    · simp only [findFirstTag, if_neg ha] at hfind
      simp [updateFirstTag, ha, ih hfind]

theorem docItems_eq_of_channel {root ch : Elem} (h : channelOf root = some ch) :
    docItems root = itemsOfChannel ch := by
  unfold docItems
  rw [h]

/-! ## Claim theorems -/

/-- C3: an item is dropped exactly when it lacks a (nonempty) description or
its repaired description yields no `.mp3` audio reference; the output items
are the processed input items in input order, and the output count is the
input count minus the dropped count. -/
theorem c3_item_filtering (p : String → Int) (root out : Elem)
    (h : transform_feed p root = Except.ok out) :
    docItems out = (docItems root).filterMap (processItem p) ∧
    (∀ it, processItem p it = none ↔
      descTextOf it = none ∨ descTextOf it = some "" ∨
      (∃ d, descTextOf it = some d ∧ ¬d = "" ∧
        extract_mp3_url (fix_relative_urls d) = none)) ∧
    (docItems out).length = (docItems root).length
      - ((docItems root).filter (fun it => (processItem p it).isNone)).length := by
  refine ⟨docItems_transformed h, fun it => processItem_none_iff p it, ?_⟩
  rw [docItems_transformed h]
  exact length_filterMap_sub _ _

/-- C4: `extract_mp3_url` decodes HTML entities and then searches the
decoded text; a successful extraction is the first match of the audio
pattern, which is nonempty and ends in `.mp3` case-insensitively, prefixed
with the base URL exactly when it starts with `/` and returned verbatim
otherwise; on failure the transformer drops the item. -/
theorem c4_extract_mp3_url (d : String) :
    (∀ u, extract_mp3_url d = some u →
      ∃ g, searchAudio (unescapeHtml d).data = some g ∧ ¬g = [] ∧
        listEqCI (g.drop (g.length - 4)) ['.', 'm', 'p', '3'] = true ∧
        (g.head? = some '/' → u = BASE_URL ++ String.mk g) ∧
        (¬g.head? = some '/' → u = String.mk g)) ∧
    (extract_mp3_url d = none ↔ searchAudio (unescapeHtml d).data = none) ∧
    (∀ p it, descTextOf it = some d → ¬d = "" →
      extract_mp3_url (fix_relative_urls d) = none → processItem p it = none) := by
  refine ⟨?_, extract_mp3_url_none_iff d, ?_⟩
  · intro u hu
    rcases extract_mp3_url_some_inv hu with ⟨g, hg, hne, hci, hsl, hnosl, _⟩
    exact ⟨g, hg, hne, hci, hsl, hnosl⟩
  · intro p it hdesc hne hext
    rw [processItem_none_iff]
    exact Or.inr (Or.inr ⟨d, hdesc, hne, hext⟩)

/-- C5: duration synthesis: nonpositive sizes yield `"00:00"`; positive
sizes format `total = size*8 / 192000` seconds as zero-padded `MM:SS` below
one hour and `HH:MM:SS` from one hour on; the sizes for 3600 s and 90 s at
the fixed bitrate give `"01:00:00"` and `"01:30"`. -/
theorem c5_format_duration (n : Int) :
    (n ≤ 0 → format_duration n = "00:00") ∧
    (0 < n → n.toNat * 8 / BITRATE_BPS < 3600 →
      format_duration n = pad2 (n.toNat * 8 / BITRATE_BPS / 60) ++ ":"
        ++ pad2 (n.toNat * 8 / BITRATE_BPS % 60)) ∧
    (0 < n → 3600 ≤ n.toNat * 8 / BITRATE_BPS →
      format_duration n = pad2 (n.toNat * 8 / BITRATE_BPS / 3600) ++ ":"
        ++ pad2 (n.toNat * 8 / BITRATE_BPS % 3600 / 60) ++ ":"
        ++ pad2 (n.toNat * 8 / BITRATE_BPS % 3600 % 60)) ∧
    format_duration 86400000 = "01:00:00" ∧
    format_duration 2160000 = "01:30" := by
  refine ⟨?_, ?_, ?_, by decide, by decide⟩
  · intro h
    unfold format_duration
    rw [if_pos h]
  · intro h hlt
    unfold format_duration
    rw [if_neg (by omega)]
    dsimp only
    have h0 : n.toNat * 8 / BITRATE_BPS / 3600 = 0 := Nat.div_eq_of_lt hlt
    have hm : n.toNat * 8 / BITRATE_BPS % 3600 = n.toNat * 8 / BITRATE_BPS :=
      Nat.mod_eq_of_lt hlt
    rw [h0, hm]
    simp
  · intro h hge
    unfold format_duration
    rw [if_neg (by omega)]
    dsimp only
    have hpos : 0 < n.toNat * 8 / BITRATE_BPS / 3600 :=
      Nat.div_pos hge (by norm_num)
    rw [if_pos (by simpa using hpos)]

/-- C8: the transformation is terminal exactly for an unparseable source or
a parsed document without a channel element; parse failure and the missing
channel produce the script's error outcomes, and no per-item condition is
terminal. -/
theorem c8_terminal_error (p : String → Int) (doc : Option Elem) :
    (isOkE (transform_total p doc) = true
      ↔ ∃ root, doc = some root ∧ (findFirstTag "channel" root.children).isSome) ∧
    (doc = none → transform_total p doc = Except.error "XML parse error") ∧
    (∀ root, doc = some root → findFirstTag "channel" root.children = none →
      transform_total p doc = Except.error "Error: No channel element found.") := by
  refine ⟨?_, ?_, ?_⟩
  · cases doc with
    | none =>
      constructor
      · intro h
        exact absurd h (by simp [transform_total, isOkE])
      · rintro ⟨r, hr, _⟩
        exact absurd hr (by simp)
    | some root =>
      show isOkE (transform_feed p root) = true ↔ _
      rw [transform_feed_isOk_iff]
      constructor
      · intro hs
        exact ⟨root, rfl, hs⟩
      · rintro ⟨r, hr, hs⟩
        simp only [Option.some.injEq] at hr
        subst hr
        exact hs
  · intro hnone
    subst hnone
    rfl
  · intro root hsome hnochan
    subst hsome
    show transform_feed p root = _
    exact transform_feed_error_of_none hnochan

/-- C9: the size prober never propagates an error — a failed request, a
missing or empty header each give 0, a numeric header gives the supplied
count and a non-numeric one gives 0 — and a probed size of 0 never drops an
item: the item is kept, with enclosure length "0" and duration "00:00" when
synthesized. -/
theorem c9_size_probe :
    get_mp3_size HeadResult.failure = 0 ∧
    get_mp3_size (HeadResult.success none) = 0 ∧
    get_mp3_size (HeadResult.success (some "")) = 0 ∧
    (∀ s n, pyParseInt s = some n →
      get_mp3_size (HeadResult.success (some s)) = n) ∧
    (∀ s, pyParseInt s = none →
      get_mp3_size (HeadResult.success (some s)) = 0) ∧
    (∀ p it t u, descTextOf it = some t → ¬t = "" →
      extract_mp3_url (fix_relative_urls t) = some u →
      (processItem p it).isSome) ∧
    (∀ it out, processItem (fun _ => 0) it = some out →
      (enclosuresOf it = [] → enclosureLengths out = [some "0"]) ∧
      (durationsOf it = [] → durationTexts out = [some "00:00"])) := by
  refine ⟨rfl, rfl, rfl, ?_, ?_, ?_, ?_⟩
  · intro s n hn
    unfold get_mp3_size
    dsimp only
    by_cases hs : s = ""
    · subst hs
      have hnone : pyParseInt "" = none := by decide
      rw [hnone] at hn
      exact absurd hn (by simp)
    · rw [if_neg hs, hn]
  · intro s hn
    unfold get_mp3_size
    dsimp only
    by_cases hs : s = ""
    · rw [if_pos hs]
    · rw [if_neg hs, hn]
  · intro p it t u hdesc hne hext
    cases hpi : processItem p it with
    | some o => rfl
    | none =>
      rcases (processItem_none_iff p it).mp hpi with h1 | h2 | ⟨d2, hd2, hne2, hext2⟩
      · rw [hdesc] at h1
        exact absurd h1 (by simp)
      · rw [hdesc] at h2
        simp only [Option.some.injEq] at h2
        exact absurd h2 hne
      · rw [hdesc] at hd2
        simp only [Option.some.injEq] at hd2
        subst hd2
        rw [hext] at hext2
        exact absurd hext2 (by simp)
  · intro it out hpi
    constructor
    · intro hno
      rcases processItem_fresh_enclosure hpi hno with ⟨t, u, _, _, _, hencl⟩
      unfold enclosureLengths
      rw [hencl]
      rfl
    · intro hno
      rcases processItem_fresh_duration hpi hno with ⟨t, u, _, _, _, hdur⟩
      unfold durationTexts
      rw [hdur]
      rfl

/-- C10: for an item that already has both an enclosure and a duration, the
per-item transformation is independent of the prober, and a feed all of
whose items have both transforms identically under any two probers. -/
theorem c10_prober_independence (p1 p2 : String → Int) (it : Elem)
    (hencl : (findFirstTag "enclosure" it.children).isSome)
    (hdur : (findFirstTag (itunesTag "duration") it.children).isSome) :
    processItem p1 it = processItem p2 it ∧
    (∀ root, (∀ i ∈ docItems root,
        (findFirstTag "enclosure" i.children).isSome ∧
        (findFirstTag (itunesTag "duration") i.children).isSome) →
      transform_feed p1 root = transform_feed p2 root) := by
  refine ⟨processItem_prober_irrelevant hencl hdur p1 p2, ?_⟩
  intro root hall
  unfold transform_feed
  cases hc : findFirstTag "channel" root.children with
  | none => rfl
  | some ch =>
    have hitems : docItems root = itemsOfChannel ch :=
      docItems_eq_of_channel hc
    have hcongr : ∀ e ∈ (addChannelMeta ch).children,
        (if e.tag = "item" then processItem p1 e else some e)
          = (if e.tag = "item" then processItem p2 e else some e) := by
      intro e he
      by_cases hitem : e.tag = "item"
      · rw [if_pos hitem, if_pos hitem]
        rcases addChannelMeta_children ch with ⟨L, hL, hx⟩
        rw [hL] at he
        rcases List.mem_append.mp he with hl | hr
        · have hmem : e ∈ docItems root := by
            rw [hitems]
            exact List.mem_filter.mpr ⟨hl, by simp [hitem]⟩
          rcases hall e hmem with ⟨h1, h2⟩
          exact processItem_prober_irrelevant h1 h2 p1 p2
        · exfalso
          rcases hx e hr with ht | ht | ht | ht <;> rw [ht] at hitem <;>
            exact absurd hitem (by decide)
      · rw [if_neg hitem, if_neg hitem]
    have hchan : transformChannel p1 ch = transformChannel p2 ch := by
      unfold transformChannel
      dsimp only
      rw [List.filterMap_congr hcongr]
    dsimp only
    rw [updateFirstTag_congr_found hc hchan]

/-- C1 (amended): every output item comes from processing an input item;
when the input item had no enclosure, the output item has exactly one
enclosure, whose url is the extracted mp3 URL — non-empty, and carrying the
base-URL prefix whenever the matched path is site-root-relative.  (As stated
the claim is false: a pre-existing malformed enclosure is left untouched and
a non-root-relative match is returned verbatim, so not every surviving item
ends up with one absolute-URL enclosure; see the counterexample.) -/
theorem c1_enclosure_invariant (p : String → Int) (root out : Elem)
    (h : transform_feed p root = Except.ok out) :
    ∀ itOut ∈ docItems out, ∃ itIn ∈ docItems root,
      processItem p itIn = some itOut ∧
      (enclosuresOf itIn = [] → ∃ t g u, descTextOf itIn = some t ∧
        searchAudio (unescapeHtml (fix_relative_urls t)).data = some g ∧
        extract_mp3_url (fix_relative_urls t) = some u ∧
        enclosureUrls itOut = [some u] ∧ ¬u = "" ∧
        (g.head? = some '/' → strStartsWith u BASE_URL = true)) := by
  intro itOut hmem
  rw [docItems_transformed h] at hmem
  rcases List.mem_filterMap.mp hmem with ⟨itIn, hin, hpi⟩
  refine ⟨itIn, hin, hpi, ?_⟩
  intro hno
  rcases processItem_fresh_enclosure hpi hno with ⟨t, u, hdesc, hne, hext, hencl⟩
  rcases extract_mp3_url_some_inv hext with ⟨g, hg, hgne, hci, hslash, hnoslash, hune⟩
  refine ⟨t, g, u, hdesc, hg, hext, ?_, hune, ?_⟩
  · unfold enclosureUrls
    rw [hencl]
    rfl
  · intro hhead
    rw [hslash hhead]
    exact strStartsWith_base_append g

/-- C2 (amended): re-transforming a transformed feed reproduces it exactly —
no metadata, enclosure or duration is duplicated — provided the relative-URL
repair is idempotent on each surviving description (true of well-formed
descriptions; a description with a stray quote violates it, see the
counterexample). -/
theorem c2_idempotent (p1 p2 : String → Int) (root out : Elem)
    (h : transform_feed p1 root = Except.ok out)
    (hfix : ∀ d ∈ docDescTexts out, fix_relative_urls d = d) :
    transform_feed p2 out = Except.ok out := by
  rcases channelOf_transformed h with ⟨ch, hchin, hchout⟩
  have hmeta := addChannelMeta_has ch
  have hstep : ∀ tg, ¬tg = "item" →
      tg ∈ (addChannelMeta ch).children.map Elem.tag →
      tg ∈ (transformChannel p1 ch).children.map Elem.tag := by
    intro tg htg hmem
    rw [transformChannel_children]
    rcases List.mem_map.mp hmem with ⟨e, he, htag⟩
    have hstepe : (if e.tag = "item" then processItem p1 e else some e)
        = some e := by
      rw [if_neg (by rw [htag]; exact htg)]
    exact List.mem_map.mpr ⟨e, List.mem_filterMap.mpr ⟨e, he, hstepe⟩, htag⟩
  have hauthor := hstep (itunesTag "author") (by decide) hmeta.1
  have hsummary := hstep (itunesTag "summary") (by decide) hmeta.2.1
  have hexplicit := hstep (itunesTag "explicit") (by decide) hmeta.2.2.1
  have hcategory := hstep (itunesTag "category") (by decide) hmeta.2.2.2
  have h1 : addTagIfAbsent (itunesTag "author") authorElem
      (transformChannel p1 ch) = transformChannel p1 ch := by
    unfold addTagIfAbsent
    rw [if_pos ((findFirstTag_isSome_iff _ _).mpr hauthor)]
  have h2 : addTagIfAbsent (itunesTag "summary") summaryElem
      (transformChannel p1 ch) = transformChannel p1 ch := by
    unfold addTagIfAbsent
    rw [if_pos ((findFirstTag_isSome_iff _ _).mpr hsummary)]
  have h3 : addTagIfAbsent (itunesTag "explicit") explicitElem
      (transformChannel p1 ch) = transformChannel p1 ch := by
    unfold addTagIfAbsent
    rw [if_pos ((findFirstTag_isSome_iff _ _).mpr hexplicit)]
  have h4 : addTagIfAbsent (itunesTag "category") categoryElem
      (transformChannel p1 ch) = transformChannel p1 ch := by
    unfold addTagIfAbsent
    rw [if_pos ((findFirstTag_isSome_iff _ _).mpr hcategory)]
  have haddmeta : addChannelMeta (transformChannel p1 ch)
      = transformChannel p1 ch := by
    unfold addChannelMeta
    rw [h1, h2, h3, h4]
  have hself : ∀ e ∈ (transformChannel p1 ch).children,
      (if e.tag = "item" then processItem p2 e else some e) = some e := by
    intro e he
    by_cases hitem : e.tag = "item"
    · rw [if_pos hitem]
      have he2 := he
      rw [transformChannel_children] at he2
      rcases List.mem_filterMap.mp he2 with ⟨a, ha, hstepa⟩
      by_cases haitem : a.tag = "item"
      · rw [if_pos haitem] at hstepa
        refine processItem_second hstepa ?_
        intro dd hdd
        apply hfix
        unfold docDescTexts
        refine List.mem_filterMap.mpr ⟨e, ?_, hdd⟩
        rw [docItems_eq_of_channel hchout]
        exact List.mem_filter.mpr ⟨he, by simp [hitem]⟩
      · rw [if_neg haitem] at hstepa
        simp only [Option.some.injEq] at hstepa
        subst hstepa
        exact absurd hitem haitem
    · rw [if_neg hitem]
  have hchildren : (transformChannel p1 ch).children.filterMap
      (fun e => if e.tag = "item" then processItem p2 e else some e)
      = (transformChannel p1 ch).children := filterMap_eq_self_of hself
  have htc : transformChannel p2 (transformChannel p1 ch)
      = transformChannel p1 ch := by
    have hshow : transformChannel p2 (transformChannel p1 ch)
        = Elem.mk (addChannelMeta (transformChannel p1 ch)).tag
            (addChannelMeta (transformChannel p1 ch)).attrs
            (addChannelMeta (transformChannel p1 ch)).text
            ((addChannelMeta (transformChannel p1 ch)).children.filterMap
              (fun e => if e.tag = "item" then processItem p2 e else some e)) := rfl
    rw [hshow, haddmeta, hchildren, elem_eta]
  have hfind2 : findFirstTag "channel" out.children
      = some (transformChannel p1 ch) := hchout
  unfold transform_feed
  simp only [hfind2]
  rw [updateFirstTag_eq_self hfind2 htc, elem_eta]

/-- C6: the relative-link repair rewrites each left-to-right match of the
quoted `src`/`href` pattern — a value starting with a single `/` — to the
base-URL-prefixed double-quoted form while protocol-relative values can
never match, and the repaired text is stored back into the description the
audio extraction then reads. -/
theorem c6_relative_url_repair :
    (fix_relative_urls "<img src=\"/audio/foo.mp3\">"
      = "<img src=\"https://nhkeasier.com/audio/foo.mp3\">") ∧
    (fix_relative_urls "<img src=\"//cdn.example/x.mp3\">"
      = "<img src=\"//cdn.example/x.mp3\">") ∧
    (∀ s, fix_relative_urls s = String.mk (fixSub s.data)) ∧
    (∀ c cs a v rest, matchAttrAt (c :: cs) = some (a, v, rest) →
      fixSub (c :: cs) = (a ++ replBase ++ v ++ ['"']) ++ fixSub rest ∧
      (a = ['s', 'r', 'c'] ∨ a = ['h', 'r', 'e', 'f']) ∧
      ¬v = [] ∧ ¬v.head? = some '/' ∧ (∀ x ∈ v, isQuoteChar x = false) ∧
      ∃ q q2, isQuoteChar q = true ∧ isQuoteChar q2 = true ∧
        c :: cs = a ++ '=' :: q :: '/' :: (v ++ q2 :: rest)) ∧
    (∀ q r, matchAttrValue (q :: '/' :: '/' :: r) = none) ∧
    (∀ p it out t, processItem p it = some out → descTextOf it = some t →
      descTextOf out = some (fix_relative_urls t)) := by
  refine ⟨by decide, by decide, fix_relative_urls_eq_fixSub, ?_,
    matchAttrValue_protocol_relative, ?_⟩
  · intro c cs a v rest hm
    rcases matchAttrAt_inv hm with ⟨hattr, q, q2, hq, hq2, hl, hvne, hvh, hvq⟩
    exact ⟨fixSub_cons_match hm, hattr, hvne, hvh, hvq, q, q2, hq, hq2, hl⟩
  · intro p it out t hpi hdesc
    rcases processItem_descText hpi with ⟨t2, hdesc2, _, hout⟩
    rw [hdesc] at hdesc2
    simp only [Option.some.injEq] at hdesc2
    subst hdesc2
    exact hout

/-- C7 (amended): the de-duplication collapses runs of consecutive
duplicate declarations of the itunes namespace prefix (only): for any
quote-free URI, `n+2` consecutive copies collapse to exactly one.  (The
claim over arbitrary prefixes is false: a duplicated atom declaration is
left untouched, see the counterexample.) -/
theorem c7_dedup_itunes (uri : List Char) (n : Nat)
    (hq : ∀ c ∈ uri, ¬c = '"') :
    dedupNamespaces (String.mk ("<rss".data
        ++ (repDecl uri (n + 2) ++ "><channel></channel></rss>".data)))
      = String.mk ("<rss".data
        ++ (itunesDecl uri ++ "><channel></channel></rss>".data)) := by
  have hpre : ∀ c ∈ "<rss".data, isPySpace c = false := by decide
  have hpostns : ∀ c ∈ "><channel></channel></rss>".data, isPySpace c = false := by
    decide
  have hpost : nsDeclAt "><channel></channel></rss>".data = none := by decide
  have hpostid : ∀ f, dedupGo f "><channel></channel></rss>".data
      = "><channel></channel></rss>".data :=
    dedupGo_id_of_nospace hpostns
  unfold dedupNamespaces
  have hdata : (String.mk ("<rss".data
      ++ (repDecl uri (n + 2) ++ "><channel></channel></rss>".data))).data
      = "<rss".data ++ (repDecl uri (n + 2) ++ "><channel></channel></rss>".data) := rfl
  rw [hdata]
  set L := ("<rss".data ++ (repDecl uri (n + 2)
    ++ "><channel></channel></rss>".data)).length with hL
  have hlen4 : ("<rss".data : List Char).length = 4 := by decide
  have hfuel4 : ("<rss".data : List Char).length ≤ L := by
    rw [hL]
    simp [List.length_append]
  rw [dedupGo_nospace_append "<rss".data hpre _ L hfuel4]
  have hrep : 1 ≤ (repDecl uri (n + 2)).length := by
    rw [repDecl_length]
    have h1 : 1 ≤ n + 2 := by omega
    have h2 : 1 ≤ uri.length + 16 := by omega
    calc 1 = 1 * 1 := by ring
    _ ≤ (n + 2) * (uri.length + 16) := Nat.mul_le_mul h1 h2
  have hbig : n + 2 ≤ (repDecl uri (n + 2)).length := by
    rw [repDecl_length]
    have h2 : 1 ≤ uri.length + 16 := by omega
    calc n + 2 = (n + 2) * 1 := by ring
    _ ≤ (n + 2) * (uri.length + 16) := Nat.mul_le_mul (Nat.le_refl _) h2
  have hLsub : L - ("<rss".data : List Char).length
      = ((repDecl uri (n + 2)).length
          + ("><channel></channel></rss>".data : List Char).length - 1) + 1 := by
    rw [hL]
    simp only [List.length_append, hlen4]
    omega
  rw [hLsub]
  rw [dedupGo_collapse hq n hpost hpostid _ (by omega)]

/-! ## Witnesses and counterexamples -/

theorem c1_counterexample : enclosureInvariantHolds probeZero c1Feed = false := by
  decide

theorem c1_witness :
    ∃ itIn ∈ docItems c2GoodFeed, processItem probeZero itIn = some c1OutItem ∧
      (enclosuresOf itIn = [] → ∃ t g u, descTextOf itIn = some t ∧
        searchAudio (unescapeHtml (fix_relative_urls t)).data = some g ∧
        extract_mp3_url (fix_relative_urls t) = some u ∧
        enclosureUrls c1OutItem = [some u] ∧ ¬u = "" ∧
        (g.head? = some '/' → strStartsWith u BASE_URL = true)) :=
  c1_enclosure_invariant probeZero c2GoodFeed c2GoodOut (by rfl) c1OutItem
    (by have h : docItems c2GoodOut = [c1OutItem] := rfl
        rw [h]
        exact List.mem_singleton_self _)

theorem c2_counterexample :
    isOkE (transform_feed probeZero c2Feed) = true ∧
    isOkE (transform_feed probeZero c2Out1) = true ∧
    ¬docDescTexts c2Out2 = docDescTexts c2Out1 := by
  refine ⟨rfl, rfl, ?_⟩
  decide

theorem c2_witness : transform_feed probeZero c2GoodOut = Except.ok c2GoodOut :=
  c2_idempotent probeZero probeZero c2GoodFeed c2GoodOut (by rfl) (by decide)

theorem c3_witness :
    docItems c3Out = (docItems c3Feed).filterMap (processItem probeZero) :=
  (c3_item_filtering probeZero c3Feed c3Out (by rfl)).1

theorem c4_witness : processItem probeZero (mkItem [descElem "<p>x</p>"]) = none :=
  (c4_extract_mp3_url "<p>x</p>").2.2 probeZero (mkItem [descElem "<p>x</p>"])
    (by rfl) (by decide) (by decide)

theorem c5_witness :
    format_duration (-3) = "00:00" ∧
    format_duration 2400000
      = pad2 ((2400000 : Int).toNat * 8 / BITRATE_BPS / 60) ++ ":"
        ++ pad2 ((2400000 : Int).toNat * 8 / BITRATE_BPS % 60) :=
  ⟨(c5_format_duration (-3)).1 (by decide),
   (c5_format_duration 2400000).2.1 (by decide) (by decide)⟩

theorem c6_witness :
    fixSub ('s' :: "rc=\"/a\"".data)
      = (['s', 'r', 'c'] ++ replBase ++ ['a'] ++ ['"']) ++ fixSub [] :=
  ((c6_relative_url_repair).2.2.2.1 's' "rc=\"/a\"".data ['s', 'r', 'c'] ['a'] []
    (by decide)).1

theorem c7_counterexample :
    dedupNamespaces atomDupSource = atomDupSource ∧
    countOccur "xmlns:atom=".data (dedupNamespaces atomDupSource).data = 2 := by
  refine ⟨rfl, ?_⟩
  decide

theorem c7_witness :
    dedupNamespaces (String.mk ("<rss".data
        ++ (repDecl "http://a".data 3 ++ "><channel></channel></rss>".data)))
      = String.mk ("<rss".data
        ++ (itunesDecl "http://a".data ++ "><channel></channel></rss>".data)) :=
  c7_dedup_itunes "http://a".data 1 (by decide)

theorem c8_witness :
    transform_total probeZero (some noChannelFeed)
      = Except.error "Error: No channel element found." :=
  (c8_terminal_error probeZero (some noChannelFeed)).2.2 noChannelFeed rfl (by rfl)

theorem c9_witness :
    (processItem probeZero c9Item).isSome = true ∧
    enclosureLengths c9Out = [some "0"] ∧
    durationTexts c9Out = [some "00:00"] :=
  ⟨(c9_size_probe).2.2.2.2.2.1 probeZero c9Item "<audio src=\"/w.mp3\"></audio>"
      "https://nhkeasier.com/w.mp3" (by rfl) (by decide) (by decide),
   ((c9_size_probe).2.2.2.2.2.2 c9Item c9Out (by rfl)).1 (by rfl),
   ((c9_size_probe).2.2.2.2.2.2 c9Item c9Out (by rfl)).2 (by rfl)⟩

theorem c10_witness : processItem probeZero c10Item = processItem probeBig c10Item :=
  (c10_prober_independence probeZero probeBig c10Item (by rfl) (by rfl)).1

end Nhk
